import Mathlib

/-!
Verification of the digler file-carver against its natural-language
specification.

The development shallowly embeds the Go sources:
 * `pkg/reader/buffered_read_seeker.go` (`BRS`),
 * `internal/format/reader.go`, bounded-reader generation (`FReader`),
 * `internal/format/search.go` (`seekAt`),
 * `internal/format/pdf.go` (`scanPDF`),
 * `internal/format/mp3.go` (`parseMP3Header`),
 * `internal/format/jpeg.go` (`scanJPEG`, over the plain byte-counting
   reader generation it is paired with),
 * the SQLite validator (`scanSQLite`),
 * `internal/format/zip.go` (`parseZipFileEntry`),
 * `pkg/table` prefix table and `internal/format/registry.go`
   (`PTable`, registry search),
 * the buffered scanning engine (`Scanner.Scan` / `Scanner.scanBuffer`)
   and the single-block engine of `internal/format/scanner.go`.

Bytes are modelled as `Nat` (values 0..255 in every real stream); Go
fixed-width arithmetic is made explicit (`% 65536` for the `uint16`
rolling hash, two's-complement conversion for `uint64(int)` casts).
Streams are `List Nat`; all stateful readers become explicit state
passing.  Machine sources (`io.ReaderAt` over a section of an image)
are pure byte lists: a read delivers `min(requested, remaining)` bytes
and reports `io.EOF` exactly when it delivers fewer than requested
bytes, which is the observable behaviour of Go's `bytes.Reader` /
`io.SectionReader` combination backing every scan.
-/

set_option linter.unusedVariables false

namespace Digler

/-- Read/seek errors surfaced by the reader stack.  Go distinguishes
`io.EOF` from other errors; the only other errors reachable in the
embedded code are the negative-seek error of
`BufferedReadSeeker.Seek` and the capacity error of `Peek`. -/
inductive RdErr where
  | eof
  | negSeek
  | capExceeded
  deriving DecidableEq, Repr

/-- State of `reader.BufferedReadSeeker` (buffered_read_seeker.go)
over a pure byte source.  The Go struct holds the backing source, a
byte buffer of capacity `bufCap`, the global offset `currPos` of the
buffer start, the read offset `off` inside the buffer and the number
`size` of valid buffered bytes.  In every reachable state the buffer
contents equal `src[currPos .. currPos+size)` and the underlying
source cursor sits at `currPos + size`, so the buffer bytes are
represented by slices of `src` instead of a separate array. -/
structure BRS where
  src : List Nat
  bufCap : Nat
  currPos : Nat
  off : Nat
  size : Nat
  deriving DecidableEq, Repr

namespace BRS

/-- The absolute stream position `currPos + off` visible to readers. -/
def pos (b : BRS) : Nat := b.currPos + b.off

/-- `fillBuffer`: slide the unread tail `buf[off..size)` to the buffer
start and read from the source (cursor `currPos + size`) into the
remaining space. -/
def fill (b : BRS) : BRS :=
  let copied := b.size - b.off
  let m := min (b.bufCap - copied) (b.src.length - (b.currPos + b.size))
  { b with currPos := b.currPos + b.off, off := 0, size := copied + m }

/-- `BufferedReadSeeker.Read` into a destination of length `k`:
repeatedly copy from the buffer, refilling when exhausted; returns the
bytes delivered, an `io.EOF` flag (set when a refill produced nothing
before `k` bytes were delivered) and the new state. -/
def readAux (b : BRS) (k : Nat) (acc : List Nat) : List Nat × Bool × BRS :=
  if hk : k = 0 then (acc, false, b)
  else if hob : b.off < b.size then
    readAux { b with off := b.off + min k (b.size - b.off) }
      (k - min k (b.size - b.off))
      (acc ++ (b.src.drop (b.currPos + b.off)).take (min k (b.size - b.off)))
  else
    let b' := b.fill
    if h0 : b'.size = 0 then (acc, true, b')
    else
      readAux { b' with off := min k b'.size } (k - min k b'.size)
        (acc ++ (b'.src.drop b'.currPos).take (min k b'.size))
termination_by k
decreasing_by
  · exact Nat.sub_lt (Nat.pos_of_ne_zero hk)
      (lt_min (Nat.pos_of_ne_zero hk) (Nat.sub_pos_of_lt hob))
  · exact Nat.sub_lt (Nat.pos_of_ne_zero hk)
      (lt_min (Nat.pos_of_ne_zero hk) (Nat.pos_of_ne_zero h0))

@[simp]
def read (b : BRS) (k : Nat) : List Nat × Bool × BRS := readAux b k []

/-- `BufferedReadSeeker.Seek(k, io.SeekCurrent)`: compute the absolute
target; error on a negative position; keep the buffer when the target
falls inside the buffered range, otherwise drop it. -/
def seekCur (b : BRS) (k : Int) : Except Unit (Nat × BRS) :=
  let target : Int := (b.pos : Int) + k
  if target < 0 then .error ()
  else
    let t := target.toNat
    if b.currPos ≤ t ∧ t < b.currPos + b.size then
      .ok (t, { b with off := t - b.currPos })
    else
      .ok (t, { b with currPos := t, off := 0, size := 0 })

/-- `BufferedReadSeeker.Peek`: reject requests beyond the buffer
capacity, refill if the buffered tail is shorter than `k`, then expose
the next `k` bytes, or the whole (shorter) tail together with `io.EOF`. -/
def peek (b : BRS) (k : Nat) : List Nat × Option RdErr × BRS :=
  if k > b.bufCap then ([], some .capExceeded, b)
  else
    let b' := if b.off + k > b.size then b.fill else b
    let avail := b'.size - b'.off
    if k > avail then
      ((b'.src.drop (b'.currPos + b'.off)).take avail, some .eof, b')
    else
      ((b'.src.drop (b'.currPos + b'.off)).take k, none, b')

end BRS

/-- Go's `uint64(k)` conversion of a (possibly negative) `int` value:
two's-complement reduction modulo `2^64`. -/
def goUint64 (k : Int) : Nat := (k % (2 ^ 64 : Int)).toNat

/-- The bounded `format.Reader` (reader.go, BufferedReadSeeker
generation): wraps a `BRS`, counts the bytes yielded in `n`
(`BytesRead`) and enforces the byte budget `size`. -/
structure FReader where
  br : BRS
  n : Nat
  size : Nat
  deriving DecidableEq, Repr

namespace FReader

/-- Construct a reader over `src` positioned at its start, with buffer
capacity `bufCap` and byte budget `size` (what the engine does for
each candidate offset). -/
def mk' (src : List Nat) (bufCap size : Nat) : FReader :=
  ⟨⟨src, bufCap, 0, 0, 0⟩, 0, size⟩

/-- `Reader.Read`: fail with `io.EOF` as soon as the budget is
exhausted, otherwise delegate to the buffered reader and count the
delivered bytes. -/
def read (r : FReader) (k : Nat) : List Nat × Option RdErr × FReader :=
  if r.n ≥ r.size then ([], some .eof, r)
  else
    let out := r.br.read k
    (out.1, if out.2.1 then some .eof else none,
      { r with br := out.2.2, n := r.n + out.1.length })

/-- `Reader.ReadByte`: budget check, then a one-byte read; the byte
counter advances only on success. -/
def readByte (r : FReader) : Nat × Option RdErr × FReader :=
  if r.n ≥ r.size then (0, some .eof, r)
  else
    let out := r.br.read 1
    if out.2.1 then (0, some .eof, { r with br := out.2.2 })
    else (out.1.headI, none, { r with br := out.2.2, n := r.n + 1 })

/-- `Reader.Discard`: seek by `k` (which validators may make negative
through `SeekAt`), then account the skipped bytes against the budget:
`discarded = min(uint64(k), size - prevOffset)` with the Go
`uint64` two's-complement cast, and `io.EOF` when fewer than
`uint64(k)` bytes were accounted. -/
def discard (r : FReader) (k : Int) : Nat × Option RdErr × FReader :=
  match r.br.seekCur k with
  | .error _ => (0, some .negSeek, r)
  | .ok (offset, b') =>
    let prevOffset : Int := (offset : Int) - k
    if prevOffset < 0 ∨ r.size ≤ goUint64 prevOffset then
      (0, some .eof, { r with br := b' })
    else
      let discarded := min (goUint64 k) (r.size - goUint64 prevOffset)
      (discarded,
        if discarded < goUint64 k then some .eof else none,
        { r with br := b', n := r.n + discarded })

/-- `Reader.Peek` is a passthrough to the buffered reader and does not
touch the byte counter. -/
def peek (r : FReader) (k : Nat) : List Nat × Option RdErr × FReader :=
  let out := r.br.peek k
  (out.1, out.2.1, { r with br := out.2.2 })

/-- `Reader.BytesRead`. -/
def bytesRead (r : FReader) : Nat := r.n

/-- `Reader.BufferSize`. -/
def bufferSize (r : FReader) : Nat := r.br.bufCap

end FReader


/-- Well-formedness of a buffered-reader state: the read offset stays
inside the valid bytes, the valid bytes fit the buffer, and the
buffered window lies inside the source.  `mk'` establishes it and
every operation preserves it. -/
def BRS.WFS (b : BRS) : Prop :=
  b.off ≤ b.size ∧ b.size ≤ b.bufCap ∧ b.currPos + b.size ≤ b.src.length

/-- First index at which `sig` occurs as a contiguous run inside `l`
(Go `bytes.Index`); `none` when absent.  An empty `sig` matches at 0,
as in Go. -/
def bytesIndexAux (sig : List Nat) : List Nat → Nat → Option Nat
  | l, i =>
    if l.take sig.length = sig then some i
    else
      match l with
      | [] => none
      | _ :: t => bytesIndexAux sig t (i + 1)

def bytesIndex (sig l : List Nat) : Option Nat := bytesIndexAux sig l 0

/-- One iteration round of `format.SeekAt` (search.go), recursing on
explicit fuel.  `SeekAt` keeps a scratch buffer of
`pad + r.BufferSize()` bytes with `pad = len(sig) - 1`; before each
peek it copies the last `pad` bytes of the scratch buffer to its
front.  Because the loop only continues after a full peek (a short
peek carries `io.EOF` and breaks), the scratch buffer's searched
portion always equals a contiguous slice of the source:
`src[pos .. pos+m)` on the first iteration and
`src[pos-pad .. pos+m)` afterwards (for the in-repo case
`r.BufferSize() ≥ pad`); the embedding uses those slices directly.
The fuel only guards against the `BufferSize() = 0` configuration, on
which the Go loop never terminates; every real configuration returns
before the fuel runs out. -/
def seekAtLoop (sig : List Nat) (n : Nat) :
    FReader → Nat → Nat → Bool × Option RdErr × FReader
  | r, _, 0 => (false, none, r)
  | r, offset, fuel + 1 =>
    if offset ≥ n then (false, none, r)
    else
      let pk := r.peek r.bufferSize
      let err := pk.2.1
      let r1 := pk.2.2
      if err ≠ none ∧ err ≠ some .eof then (false, err, r1)
      else
        let m := pk.1.length
        let found :=
          if 0 < m then
            let searchBuf :=
              if 0 < offset then
                (r1.br.src.drop (r1.br.pos - (sig.length - 1))).take
                  ((sig.length - 1) + m)
              else pk.1
            bytesIndex sig searchBuf
          else none
        match found with
        | some idx =>
          let d : Int :=
            (idx : Int) - (if 0 < offset then ((sig.length - 1 : Nat) : Int) else 0)
          let out := r1.discard d
          (true, out.2.1, out.2.2)
        | none =>
          if err = some .eof then (false, none, r1)
          else
            let out := r1.discard (m : Int)
            if out.2.1 ≠ none then (false, out.2.1, out.2.2)
            else seekAtLoop sig n out.2.2 (offset + m) fuel

/-- `format.SeekAt(r, sig, n)`: search forward for `sig` within `n`
bytes of the current position. -/
def seekAt (r : FReader) (sig : List Nat) (n : Nat) :
    Bool × Option RdErr × FReader :=
  seekAtLoop sig n r 0 (n + 1)

/-- Validator outcome errors: an I/O error propagated from the reader
stack, or the format-specific rejection (`fmt.Errorf(...)`). -/
inductive VErr where
  | ioErr : RdErr → VErr
  | invalid
  deriving DecidableEq, Repr

/-- `pdfMaxFileSize` (pdf.go): 16 MiB search window. -/
def pdfMaxFileSize : Nat := 16 * 1024 * 1024

/-- `"%PDF-"`. -/
def pdfHeaderBytes : List Nat := [37, 80, 68, 70, 45]

/-- `"%%EOF"`. -/
def eofMarkerBytes : List Nat := [37, 37, 69, 79, 70]

/-- The `%%EOF` loop of `format.ScanPDF` (pdf.go).  Each round records
`n := r.BytesRead()`, seeks to the next `%%EOF` within
`pdfMaxFileSize`, consumes the marker and sets
`size = r.BytesRead() - n + len("%%EOF")`.  The fuel is an upper bound
on the rounds (each successful round advances the reader by at least
five bytes of a finite stream); it never runs out on the inputs of the
theorems below. -/
def scanPDFLoop : FReader → Nat → Nat → Except VErr Nat
  | _, size, 0 => if size = 0 then .error .invalid else .ok size
  | r, size, fuel + 1 =>
    let n := r.bytesRead
    let s := seekAt r eofMarkerBytes pdfMaxFileSize
    match s.2.1 with
    | some e => .error (.ioErr e)
    | none =>
      if s.1 = false then
        if size = 0 then .error .invalid else .ok size
      else
        let d := s.2.2.discard ((eofMarkerBytes.length : Nat) : Int)
        match d.2.1 with
        | some e => .error (.ioErr e)
        | none => scanPDFLoop d.2.2 (d.2.2.bytesRead - n + eofMarkerBytes.length) fuel

/-- `format.ScanPDF` over a candidate byte stream: read and check the
five-byte `%PDF-` header, then run the `%%EOF` loop. -/
def scanPDF (src : List Nat) (bufCap budget : Nat) : Except VErr Nat :=
  let r := FReader.mk' src bufCap budget
  let out := r.read 5
  match out.2.1 with
  | some e => .error (.ioErr e)
  | none =>
    if out.1 ≠ pdfHeaderBytes then .error .invalid
    else scanPDFLoop out.2.2 0 (src.length + 2)

/-- The byte stream `"%PDF-AB%%EOFCD%%EOF"`: a PDF header followed by
two `%%EOF` markers (at offsets 7 and 14; the last one ends at 19). -/
def pdfTwoEofStream : List Nat :=
  [37, 80, 68, 70, 45, 65, 66, 37, 37, 69, 79, 70, 67, 68, 37, 37, 69, 79, 70]

set_option maxRecDepth 10000 in

/-- A stream in which the target `"AB"` straddles two internal fills
of a 4-byte reader buffer: `"WXYABCDE"`, with the match starting at
position 3 (last byte of the first fill). -/
def straddleStream : List Nat := [87, 88, 89, 65, 66, 67, 68, 69]

/-- The target `"AB"`. -/
def straddleSig : List Nat := [65, 66]

/-- Parsed MP3 frame header (`mp3Header` in mp3.go); `mpegVersion`
uses the Go encoding 1 / 2 / 25 (for 2.5). -/
structure MP3Header where
  mpegVersion : Nat
  layer : Nat
  bitrate : Nat
  sampleRate : Nat
  padding : Bool
  frameSize : Nat
  deriving DecidableEq, Repr

/-- Bitrates (kbps) for MPEG 1 Layer III. -/
def bitrateMPEG1Layer3 : List Nat :=
  [0, 32, 40, 48, 56, 64, 80, 96, 112, 128, 160, 192, 224, 256, 320, 0]

/-- Bitrates (kbps) for MPEG 2 / 2.5 Layer III. -/
def bitrateMPEG2Layer3 : List Nat :=
  [0, 8, 16, 24, 32, 40, 48, 56, 64, 80, 96, 112, 128, 144, 160, 0]

/-- Sample rates (Hz), indexed by the raw MPEG-version bits. -/
def sampleRateTable : List (List Nat) :=
  [[11025, 12000, 8000, 0], [0, 0, 0, 0], [22050, 24000, 16000, 0],
    [44100, 48000, 32000, 0]]

/-- `binary.BigEndian.Uint32(headerBytes)` of the first four bytes. -/
def mp3Word (b : List Nat) : Nat :=
  ((b.getD 0 0 * 256 + b.getD 1 0) * 256 + b.getD 2 0) * 256 + b.getD 3 0

/-- The raw MPEG-version bits `(header >> 19) & 0x03`. -/
def mp3VersionBits (b : List Nat) : Nat := (mp3Word b >>> 19) &&& 0x03

/-- The decoded MPEG version: 1, 2 or 25 (Go's encoding of 2.5). -/
def mp3Version (b : List Nat) : Nat :=
  if mp3VersionBits b = 3 then 1 else if mp3VersionBits b = 2 then 2 else 25

/-- The bitrate index `(header >> 12) & 0x0F`. -/
def mp3BitrateIdx (b : List Nat) : Nat := (mp3Word b >>> 12) &&& 0x0F

/-- The bitrate in kbps, from the table matching the MPEG version. -/
def mp3Bitrate (b : List Nat) : Nat :=
  if mp3Version b = 1 then bitrateMPEG1Layer3.getD (mp3BitrateIdx b) 0
  else bitrateMPEG2Layer3.getD (mp3BitrateIdx b) 0

/-- The sample-rate index `(header >> 10) & 0x03`. -/
def mp3SampleRateIdx (b : List Nat) : Nat := (mp3Word b >>> 10) &&& 0x03

/-- The sample rate in Hz, from `sampleRateTable[versionBits]`. -/
def mp3SampleRate (b : List Nat) : Nat :=
  (sampleRateTable.getD (mp3VersionBits b) []).getD (mp3SampleRateIdx b) 0

/-- The padding bit `((header >> 9) & 0x01) != 0`. -/
def mp3Padding (b : List Nat) : Bool := !((mp3Word b >>> 9) &&& 0x01 == 0)

/-- The Go frame-size computation
`((1152 * bitrate * 1000) / sampleRate) / 8` plus the padding bit. -/
def mp3FrameSize (b : List Nat) : Nat :=
  1152 * mp3Bitrate b * 1000 / mp3SampleRate b / 8 +
    if mp3Padding b then 1 else 0

/-- `parseMP3Header` (mp3.go): parse a 4-byte MP3 frame header, with
exactly the checks of the Go code; the frame size uses the same
formula for every accepted MPEG version. -/
def parseMP3Header (b : List Nat) : Option MP3Header :=
  if b.length < 4 then none
  else if mp3Word b &&& 0xFFE00000 ≠ 0xFFE00000 then none
  else if mp3VersionBits b = 1 then none
  else if (mp3Word b >>> 17) &&& 0x03 ≠ 1 then none
  else if mp3BitrateIdx b = 0 ∨ mp3BitrateIdx b = 15 then none
  else if mp3SampleRateIdx b = 3 then none
  else if mp3SampleRate b = 0 then none
  else if mp3FrameSize b ≤ 4 then none
  else
    some ⟨mp3Version b, 3, mp3Bitrate b, mp3SampleRate b, mp3Padding b,
      mp3FrameSize b⟩

/-- `ScanResult` (header.go): `{Name, Ext string; Size uint64}`. -/
structure ScanResult where
  name : String
  ext : String
  size : Nat
  deriving DecidableEq, Repr

/-- Big-endian 16-bit field at byte offset `i`. -/
def be16 (l : List Nat) (i : Nat) : Nat := l.getD i 0 * 256 + l.getD (i + 1) 0

/-- Big-endian 32-bit field at byte offset `i`. -/
def be32 (l : List Nat) (i : Nat) : Nat :=
  ((l.getD i 0 * 256 + l.getD (i + 1) 0) * 256 + l.getD (i + 2) 0) * 256 +
    l.getD (i + 3) 0

/-- `"SQLite format 3\0"`. -/
def sqliteMagic : List Nat :=
  [83, 81, 76, 105, 116, 101, 32, 102, 111, 114, 109, 97, 116, 32, 51, 0]

/-- `isPowerOfTwo` from the SQLite validator:
`x != 0 && (x & (x-1)) == 0`. -/
def isPowerOfTwo (x : Nat) : Bool := x != 0 && (x &&& (x - 1)) == 0

/-- The decoded page size: the big-endian 16-bit field at offset 16,
with the value 1 encoding 65536. -/
def sqlitePageSize (hdr : List Nat) : Nat :=
  if be16 hdr 16 = 1 then 65536 else be16 hdr 16

/-- The pure part of `ScanSQLite` after the 100-byte header has been
read: magic check, page-size check, and the size decision
`fileSizeInPage * pageSize` when `fileSizeInPage != 0` and
`fileChangeCounter == versionValidFor`, else zero. -/
def sqliteParse (hdr : List Nat) : Except VErr ScanResult :=
  if hdr.take 16 ≠ sqliteMagic then .error .invalid
  else if ¬isPowerOfTwo (sqlitePageSize hdr) = true ∨
      sqlitePageSize hdr < 512 ∨ sqlitePageSize hdr > 65536 then .error .invalid
  else
    .ok ⟨"", "",
      if be32 hdr 28 ≠ 0 ∧ be32 hdr 24 = be32 hdr 92 then
        be32 hdr 28 * sqlitePageSize hdr
      else 0⟩

/-- `ScanSQLite`: read the 100-byte header (any read error is fatal)
and decide on it. -/
def scanSQLite (src : List Nat) (bufCap budget : Nat) : Except VErr ScanResult :=
  let out := (FReader.mk' src bufCap budget).read 100
  match out.2.1 with
  | some _ => .error (.ioErr .eof)
  | none => sqliteParse out.1

/-- Modelled from the spec: the scanning-engine generation that
consumes `ScanResult` values (the five-argument `format.NewScanner`
called by `internal/scan.ScanPartition`) is not among the provided
sources.  Per spec §4.4.12 — "otherwise returned size is zero (treated
as fatal by the engine)" — and §4.3's edge policies, a zero-size scan
result is a failed validation: the engine emits no carve for it. -/
def scanResultFatal (res : ScanResult) : Bool := res.size == 0

/-- A concrete 100-byte SQLite header: magic, page size 512
(bytes 16..17 = `02 00`), `fileChangeCounter = versionValidFor = 0`,
`fileSizeInPage = 2` (byte 31). -/
def sqliteWitnessSrc : List Nat :=
  sqliteMagic ++ [2, 0] ++ List.replicate 13 0 ++ [2] ++ List.replicate 68 0

/-- Little-endian 16-bit field at byte offset `i`. -/
def le16 (l : List Nat) (i : Nat) : Nat := l.getD i 0 + l.getD (i + 1) 0 * 256

/-- Little-endian 32-bit field at byte offset `i`. -/
def le32 (l : List Nat) (i : Nat) : Nat :=
  l.getD i 0 + l.getD (i + 1) 0 * 256 + l.getD (i + 2) 0 * 65536 +
    l.getD (i + 3) 0 * 16777216

/-- `ZipFileEntry` (zip.go): the fixed 26-byte local-file-header tail
after the `PK\x03\x04` signature. -/
structure ZipFileEntry where
  version : Nat
  flags : Nat
  compression : Nat
  lastModTime : Nat
  lastModDate : Nat
  crc32 : Nat
  compressedSize : Nat
  uncompressedSize : Nat
  filenameLength : Nat
  extraLength : Nat
  deriving DecidableEq, Repr

/-- `binary.Read(r, binary.LittleEndian, &entry)`: decode the 26-byte
struct. -/
def zipEntryOfBytes (b : List Nat) : ZipFileEntry :=
  ⟨le16 b 0, le16 b 2, le16 b 4, le16 b 6, le16 b 8, le32 b 10, le32 b 14,
    le32 b 18, le16 b 22, le16 b 24⟩

/-- `zipDecoder` state: which OOXML member names have been seen. -/
structure ZipDec where
  contentTypesSeen : Bool
  relsSeen : Bool
  wordDocumentSeen : Bool
  pptPresentationSeen : Bool
  xlWorkbookSeen : Bool
  deriving DecidableEq, Repr

/-- A fresh `zipDecoder`. -/
def zipDec0 : ZipDec := ⟨false, false, false, false, false⟩

/-- `"[Content_Types].xml"`. -/
def nmContentTypes : List Nat :=
  [91, 67, 111, 110, 116, 101, 110, 116, 95, 84, 121, 112, 101, 115, 93, 46, 120, 109, 108]

/-- `"_rels/.rels"`. -/
def nmRels : List Nat := [95, 114, 101, 108, 115, 47, 46, 114, 101, 108, 115]

/-- `"word/document.xml"`. -/
def nmWordDocument : List Nat :=
  [119, 111, 114, 100, 47, 100, 111, 99, 117, 109, 101, 110, 116, 46, 120, 109, 108]

/-- `"ppt/presentation.xml"`. -/
def nmPptPresentation : List Nat :=
  [112, 112, 116, 47, 112, 114, 101, 115, 101, 110, 116, 97, 116, 105, 111, 110, 46, 120, 109, 108]

/-- `"xl/workbook.xml"`. -/
def nmXlWorkbook : List Nat :=
  [120, 108, 47, 119, 111, 114, 107, 98, 111, 111, 107, 46, 120, 109, 108]

/-- `zipDecoder.processFileName`. -/
def processFileName (d : ZipDec) (name : List Nat) : ZipDec :=
  if name = nmContentTypes then { d with contentTypesSeen := true }
  else if name = nmRels then { d with relsSeen := true }
  else if name = nmWordDocument then { d with wordDocumentSeen := true }
  else if name = nmPptPresentation then { d with pptPresentationSeen := true }
  else if name = nmXlWorkbook then { d with xlWorkbookSeen := true }
  else d

/-- ZIP validator errors; `descriptorWithSize` is the
`"invalid ZIP file entry: unexpected signature bit set"` rejection. -/
inductive ZipErr where
  | ioErr : RdErr → ZipErr
  | descriptorWithSize
  | descriptorNotFound
  | badDescriptor
  deriving DecidableEq, Repr

/-- `PK\x07\x08`, the data-descriptor signature. -/
def zipDescriptorSig : List Nat := [0x50, 0x4B, 0x07, 0x08]

/-- `MaxZipFileSize = math.MaxUint32`. -/
def maxZipFileSize : Nat := 4294967295

/-- `seekToZIPDescriptor` (zip.go): locate `PK\x07\x08` within
`MaxZipFileSize` bytes, read the 16 descriptor bytes and check its
leading signature. -/
def seekToZIPDescriptor (r : FReader) : Except ZipErr Unit × FReader :=
  let s := seekAt r zipDescriptorSig maxZipFileSize
  match s.2.1 with
  | some e => (.error (.ioErr e), s.2.2)
  | none =>
    if s.1 = false then (.error .descriptorNotFound, s.2.2)
    else
      match s.2.2.read 16 with
      | (_, some e, r') => (.error (.ioErr e), r')
      | (descBuf, none, r') =>
        if descBuf.take 4 ≠ zipDescriptorSig then (.error .badDescriptor, r')
        else (.ok (), r')

/-- `zipDecoder.parseZipFileEntry` (zip.go): decode the fixed entry,
read the filename (recording OOXML member names), skip the extra
field, then — exactly as the Go code — reject when the
data-descriptor flag (bit 3) is set while the declared size
(compressed size, or uncompressed size for stored entries) is
non-zero; otherwise seek the descriptor (flag set) or skip the
declared size. -/
def parseZipFileEntry (d : ZipDec) (r : FReader) :
    Except ZipErr Unit × ZipDec × FReader :=
  match r.read 26 with
  | (_, some e, r1) => (.error (.ioErr e), d, r1)
  | (hdr, none, r1) =>
    let entry := zipEntryOfBytes hdr
    match r1.read entry.filenameLength with
    | (_, some e, r2) => (.error (.ioErr e), d, r2)
    | (fn, none, r2) =>
      let d1 := processFileName d fn
      match
        (if entry.extraLength > 0 then r2.discard (entry.extraLength : Int)
         else (0, none, r2)) with
      | (_, some e, r3) => (.error (.ioErr e), d1, r3)
      | (_, none, r3) =>
        let size :=
          if entry.compression ≠ 0 then entry.compressedSize
          else entry.uncompressedSize
        if entry.flags &&& 8 ≠ 0 ∧ size ≠ 0 then
          (.error .descriptorWithSize, d1, r3)
        else if entry.flags &&& 8 ≠ 0 then
          let s := seekToZIPDescriptor r3
          (s.1, d1, s.2)
        else if size > 0 then
          match r3.discard (size : Int) with
          | (_, some e, r4) => (.error (.ioErr e), d1, r4)
          | (_, none, r4) => (.ok (), d1, r4)
        else (.ok (), d1, r3)

/-- A concrete 26-byte local file entry: flags = 8 (data-descriptor
bit set), compression 0 (stored), uncompressed size 5, empty filename
and extra field. -/
def zipWitnessSrc : List Nat :=
  [20, 0, 8, 0, 0, 0, 0, 0, 0, 0, 0, 0, 0, 0, 0, 0, 0, 0, 5, 0, 0, 0, 0, 0, 0, 0]

/-- Control state of `ScanJPEG`'s marker loop (jpeg.go).  `outer` is
the top of the segment loop (about to read two bytes into `tmp`);
`extra t0 t1` is the extraneous-data loop scanning for an `FF`;
`fill m` is the fill-byte loop skipping extra `FF`s; `markerSt m`
dispatches on the marker byte.  The reader of this generation wraps a
`bufio.Reader` with a plain byte counter: a read of `k` bytes from a
list-backed stream delivers the next `k` bytes, or fails with
`io.EOF` when fewer remain, and `BytesRead` equals the position. -/
inductive JState where
  | outer
  | extra (t0 t1 : Nat)
  | fill (m : Nat)
  | markerSt (m : Nat)
  deriving DecidableEq, Repr

/-- Rank used in the termination measure of `jpegRun` (states that
recurse at an unchanged position move to strictly smaller rank). -/
def jpegRank : JState → Nat
  | .outer => 0
  | .extra _ _ => 3
  | .fill _ => 2
  | .markerSt _ => 1

/-- The markers of the Go `switch` plus its default branch that carry
a length-prefixed segment: SOF0/1/2, DHT, DQT, SOS, DRI, APP0..APP15
and COM. -/
def jpegHasSegment (m : Nat) : Bool :=
  m = 0xC0 || m = 0xC1 || m = 0xC2 || m = 0xC4 || m = 0xDB || m = 0xDA ||
    m = 0xDD || (decide (0xE0 ≤ m) && decide (m ≤ 0xEF)) || m = 0xFE

/-- The marker loop of `ScanJPEG` over `data` from position `pos` in
state `st`; returns `BytesRead` (= the position) when `FF D9` is
consumed, the format rejection for a segment length below 2 or an
unknown marker, and an I/O error on truncation. -/
def jpegRun (data : List Nat) (pos : Nat) (st : JState) : Except VErr Nat :=
  match st with
  | .outer =>
    if h : pos + 2 ≤ data.length then
      jpegRun data (pos + 2) (.extra (data.getD pos 0) (data.getD (pos + 1) 0))
    else .error (.ioErr .eof)
  | .extra t0 t1 =>
    if t0 ≠ 255 then
      if h : pos < data.length then
        jpegRun data (pos + 1) (.extra t1 (data.getD pos 0))
      else .error (.ioErr .eof)
    else if t1 = 0 then jpegRun data pos .outer
    else jpegRun data pos (.fill t1)
  | .fill m =>
    if m = 255 then
      if h : pos < data.length then
        jpegRun data (pos + 1) (.fill (data.getD pos 0))
      else .error (.ioErr .eof)
    else jpegRun data pos (.markerSt m)
  | .markerSt m =>
    if m = 217 then .ok pos
    else if 208 ≤ m ∧ m ≤ 215 then jpegRun data pos .outer
    else if h : pos + 2 ≤ data.length then
      if data.getD pos 0 * 256 + data.getD (pos + 1) 0 < 2 then .error .invalid
      else if jpegHasSegment m then
        if h2 : pos + 2 + (data.getD pos 0 * 256 + data.getD (pos + 1) 0 - 2) ≤
            data.length then
          jpegRun data
            (pos + 2 + (data.getD pos 0 * 256 + data.getD (pos + 1) 0 - 2)) .outer
        else .error (.ioErr .eof)
      else .error .invalid
    else .error (.ioErr .eof)
termination_by (data.length - pos) * 4 + jpegRank st
decreasing_by
  all_goals simp only [jpegRank]
  all_goals omega

/-- `ScanJPEG`: require the `FF D8` SOI marker, then run the marker
loop. -/
def scanJPEG (data : List Nat) : Except VErr Nat :=
  if 2 ≤ data.length then
    if data.getD 0 0 = 255 ∧ data.getD 1 0 = 216 then jpegRun data 2 .outer
    else .error .invalid
  else .error (.ioErr .eof)

/-- The data-flow invariant of the marker loop: the state's byte
arguments are the bytes the loop has just consumed. -/
def JInv (data : List Nat) (pos : Nat) : JState → Prop
  | .outer => 2 ≤ pos
  | .extra t0 t1 => 2 ≤ pos ∧ data.getD (pos - 2) 0 = t0 ∧ data.getD (pos - 1) 0 = t1
  | .fill m => 2 ≤ pos ∧ data.getD (pos - 2) 0 = 255 ∧ data.getD (pos - 1) 0 = m
  | .markerSt m => 2 ≤ pos ∧ data.getD (pos - 2) 0 = 255 ∧ data.getD (pos - 1) 0 = m

/-- One step of the rolling hash of `pkg/table`:
`h = (h << 2) + uint16(b)` in `uint16` arithmetic. -/
def hashStep (h b : Nat) : Nat := (h * 4 + b) % 65536

/-- The hash of a whole key (the value of `h` after `Insert`'s loop). -/
def sigHash (key : List Nat) : Nat := key.foldl hashStep 0

/-- `table.PrefixTable`: the 65536-slot marker array (0 = `none`,
1 = `presentMarker`, 2 = `elemMarker`; the array is total over `Nat`
but only ever indexed by `% 65536` values) and the exact-key map
`elems`.  The Go map is modelled as an association list with newer
entries in front; assignment prepends, lookup takes the first hit. -/
structure PTable (V : Type) where
  table : Nat → Nat
  elems : List (List Nat × V)

/-- `table.New()`. -/
def PTable.empty (V : Type) : PTable V := ⟨fun _ => 0, []⟩

/-- Go map lookup `t.elems[string(key)]`. -/
def lookupM {V : Type} (l : List (List Nat × V)) (key : List Nat) : Option V :=
  (l.find? (fun p => p.1 == key)).map (·.2)

/-- The marking loop of `PrefixTable.Insert`: for each byte, advance
the hash and raise the slot to at least `presentMarker`; returns the
marked table and the final hash. -/
def insertMarks : (Nat → Nat) → Nat → List Nat → (Nat → Nat) × Nat
  | t, h, [] => (t, h)
  | t, h, b :: rest =>
    insertMarks (fun i => if i = hashStep h b then max (t i) 1 else t i)
      (hashStep h b) rest

/-- `PrefixTable.Insert`: mark every prefix slot, set the full key's
slot to `elemMarker` and store the pair in the map. -/
def PTable.insert {V : Type} (tb : PTable V) (key : List Nat) (v : V) : PTable V :=
  let out := insertMarks tb.table 0 key
  ⟨fun i => if i = out.2 then 2 else out.1 i, (key, v) :: tb.elems⟩

/-- The scanner iteration of `FileRegistry.Search`'s `onMatch`
callback: call `handleHeader` on each registered scanner in order,
stopping at the first acceptance; returns the visited scanners and
whether one accepted. -/
def runVisit {S : Type} (accept : S → Bool) : List S → List S × Bool
  | [] => ([], false)
  | x :: rest =>
    if accept x then ([x], true)
    else
      let out := runVisit accept rest
      (x :: out.1, out.2)

/-- `PrefixTable.Walk` as used by `FileRegistry.Search`, flattened to
the sequence of visited scanners: advance the rolling hash byte by
byte; stop at a `none` slot; on an `elemMarker` slot look the exact
prefix up in the map and visit its scanners, stopping once one
accepts. -/
def walkVisits {S : Type} (tb : PTable (List S)) (accept : S → Bool) :
    List Nat → List Nat → Nat → List S
  | _, [], _ => []
  | seen, b :: rest, h =>
    if tb.table (hashStep h b) = 0 then []
    else
      let step :=
        if tb.table (hashStep h b) = 2 then
          match lookupM tb.elems (seen ++ [b]) with
          | some scs => runVisit accept scs
          | none => ([], false)
        else (([] : List S), false)
      if step.2 then step.1
      else step.1 ++ walkVisits tb accept (seen ++ [b]) rest (hashStep h b)

/-- `FileRegistry.Search`: empty-registry guard, then the walk from
hash 0 over the data bytes. -/
def searchVisits {S : Type} (tb : PTable (List S)) (accept : S → Bool)
    (data : List Nat) : List S :=
  if tb.elems.length = 0 then [] else walkVisits tb accept [] data 0

/-- The naive reference of the registry contract (spec §4.2), written
from the spec's words: for successively longer prefixes of the data,
look the prefix up among the registered signatures and visit its
scanners once each in registration order, stopping as soon as one
accepts. -/
def naiveAux {S : Type} (tb : PTable (List S)) (accept : S → Bool) :
    List Nat → List Nat → List S
  | _, [] => []
  | seen, b :: rest =>
    let step :=
      match lookupM tb.elems (seen ++ [b]) with
      | some scs => runVisit accept scs
      | none => (([] : List S), false)
    if step.2 then step.1
    else step.1 ++ naiveAux tb accept (seen ++ [b]) rest

/-- The naive prefix scan over all registered signatures. -/
def naiveVisits {S : Type} (tb : PTable (List S)) (accept : S → Bool)
    (data : List Nat) : List S :=
  naiveAux tb accept [] data

/-- `FileRegistry.Add`: register a scanner under each of its
signatures, appending it to the scanners already stored there. -/
def registryAdd {S : Type} (sigsOf : S → List (List Nat))
    (tb : PTable (List S)) (sc : S) : PTable (List S) :=
  (sigsOf sc).foldl
    (fun t sig => t.insert sig ((lookupM t.elems sig).getD [] ++ [sc])) tb

/-- `BuildFileRegistry`: fold `Add` over the scanners. -/
def buildRegistry {S : Type} (sigsOf : S → List (List Nat))
    (scanners : List S) : PTable (List S) :=
  scanners.foldl (registryAdd sigsOf) (PTable.empty _)

/-- The invariant tying markers to the map: all marker values are at
most 2, every registered key's slot holds `elemMarker`, and every
nonempty prefix of a registered key is marked at least
`presentMarker`. -/
def TblWF {V : Type} (tb : PTable V) : Prop :=
  (∀ i, tb.table i ≤ 2) ∧
  (∀ sig, lookupM tb.elems sig ≠ none → tb.table (sigHash sig) = 2) ∧
  (∀ sig, lookupM tb.elems sig ≠ none →
    ∀ k, 0 < k → k ≤ sig.length → 1 ≤ tb.table (sigHash (sig.take k)))

/-- A concrete signature assignment used to instantiate the registry
equivalence: scanner 1 carries signature `AA`, scanner 2 carries
`AA BB`. -/
def regSigsOf : Nat → List (List Nat) :=
  fun sc => if sc = 1 then [[170]] else if sc = 2 then [[170, 187]] else []

/-- `format.FileHeader` as consumed by the buffered scanning engine:
extension, signatures, and `ScanFile` abstracted to a function from
the byte stream the engine hands it to a carved size (`none` models a
scan error). -/
structure HdrM where
  ext : String
  sigs : List (List Nat)
  scan : List Nat → Option Nat

/-- `format.FileInfo`. -/
structure FileInfoM where
  offset : Nat
  size : Nat
  format : String
  deriving DecidableEq

/-- `roundToMul` from the buffered scanner: round `n` up to a multiple
of `m`. -/
def roundToMul (n m : Nat) : Nat := (n + m - 1) / m * m

/-- The byte count delivered by `ReadAt(buf, blockOffset)` over a data
source of `dataLen` bytes: the read is short (with `io.EOF`) exactly
when fewer than `bufLen` bytes remain. -/
def nReadAt (dataLen blockOffset bufLen : Nat) : Nat :=
  min bufLen (dataLen - blockOffset)

/-- The scan buffer after `ReadAt`: the first `nReadAt` bytes are the
data at `blockOffset`, the tail keeps the stale bytes of the previous
fill (the buffer is reused across iterations and `ReadAt` only
overwrites the bytes it delivers). -/
def fillBuf (data : List Nat) (blockOffset : Nat) (buf : List Nat) : List Nat :=
  (data.drop blockOffset).take buf.length ++
    buf.drop (nReadAt data.length blockOffset buf.length)

/-- The stream handed to a candidate's scan function: the buffer from
the candidate block up to the `n` scanned blocks, then the underlying
data starting right after the span covered by the whole buffer
(`io.MultiReader` of the buffer slice and a section reader at
`blockOffset + len(buf)`). -/
def candStream (data buf : List Nat) (blockOffset bs n blockIdx : Nat) : List Nat :=
  (buf.take (n * bs)).drop (blockIdx * bs) ++ data.drop (blockOffset + buf.length)

/-- The acceptance test of `scanBuffer`'s search callback: a header
stops the registry walk when its scan succeeds with a positive size. -/
def candAccept (stream : List Nat) (h : HdrM) : Bool :=
  match h.scan stream with
  | some s => decide (0 < s)
  | none => false

/-- The headers visited by `FileRegistry.Search` on the buffer suffix
at the candidate block. -/
def candVisited (tb : PTable (List HdrM)) (data buf : List Nat)
    (blockOffset bs n blockIdx : Nat) : List HdrM :=
  searchVisits tb (candAccept (candStream data buf blockOffset bs n blockIdx))
    (buf.drop (blockIdx * bs))

/-- The records yielded while processing one candidate block: one per
visited header whose scan returned without error — note, also when the
returned size is zero — in visitation order. -/
def emitRecords (scanRes : HdrM → Option Nat) (off : Nat) : List HdrM → List FileInfoM
  | [] => []
  | h :: rest =>
    match scanRes h with
    | some s => ⟨off, s, h.ext⟩ :: emitRecords scanRes off rest
    | none => emitRecords scanRes off rest

/-- The value of `scanBuffer`'s `size` variable after the search: it is
overwritten by every `scanFile` call, so it ends as the last visited
header's result (zero when that scan errored). -/
def candSize (scanRes : HdrM → Option Nat) : List HdrM → Nat
  | [] => 0
  | [h] => (scanRes h).getD 0
  | _ :: rest => candSize scanRes rest

/-- The records of one candidate block. -/
def candRecords (tb : PTable (List HdrM)) (data buf : List Nat)
    (blockOffset bs n blockIdx : Nat) : List FileInfoM :=
  emitRecords (fun h => h.scan (candStream data buf blockOffset bs n blockIdx))
    ((blockOffset / bs + blockIdx) * bs)
    (candVisited tb data buf blockOffset bs n blockIdx)

/-- The accepted size of one candidate block. -/
def candSz (tb : PTable (List HdrM)) (data buf : List Nat)
    (blockOffset bs n blockIdx : Nat) : Nat :=
  candSize (fun h => h.scan (candStream data buf blockOffset bs n blockIdx))
    (candVisited tb data buf blockOffset bs n blockIdx)

/-- `Scanner.scanBuffer`: iterate candidate blocks; after an accepted
carve of `size` bytes skip `roundToMul size bs / bs` blocks, otherwise
advance one block.  The fuel argument bounds the iteration count; `n`
iterations always suffice when `bs` is positive, since every step
advances the block index by at least one. -/
def scanBufferM (tb : PTable (List HdrM)) (data buf : List Nat)
    (blockOffset bs n : Nat) : Nat → Nat → List FileInfoM
  | 0, _ => []
  | fuel + 1, blockIdx =>
    if blockIdx < n then
      candRecords tb data buf blockOffset bs n blockIdx ++
        (if 0 < candSz tb data buf blockOffset bs n blockIdx then
          scanBufferM tb data buf blockOffset bs n fuel
            (blockIdx + roundToMul (candSz tb data buf blockOffset bs n blockIdx) bs / bs)
        else
          scanBufferM tb data buf blockOffset bs n fuel (blockIdx + 1))
    else []

/-- The main loop of the buffered `Scanner.Scan`: fill the buffer at
`blockOffset`, derive the scanned block count by rounding the read
byte count up to whole blocks, scan the buffer, then — unless the fill
was short (`io.EOF`) — advance `blockOffset` by the full buffer length
unconditionally, even when an accepted carve extended past the end of
the buffer.  The yield callback is modelled as always continuing, so
the result is the full record sequence.  The fuel argument bounds the
iteration count; `data.length` iterations always suffice for a
non-empty buffer since `blockOffset` grows by the buffer length each
time. -/
def scanLoopM (tb : PTable (List HdrM)) (data : List Nat) (bs : Nat) :
    Nat → List Nat → Nat → List FileInfoM
  | 0, _, _ => []
  | fuel + 1, buf, blockOffset =>
    if blockOffset < data.length then
      scanBufferM tb data (fillBuf data blockOffset buf) blockOffset bs
          (roundToMul (nReadAt data.length blockOffset buf.length) bs / bs)
          (roundToMul (nReadAt data.length blockOffset buf.length) bs / bs) 0 ++
        (if nReadAt data.length blockOffset buf.length < buf.length then []
        else
          scanLoopM tb data bs fuel (fillBuf data blockOffset buf)
            (blockOffset + buf.length))
    else []

/-- `NewScanner` + `Scanner.Scan` over a region given as a byte list:
the buffer is allocated zeroed with length `roundToMul bufferSize bs`,
the registry is built from the headers' signatures, and the scan limit
is the region length. -/
def scanEngine (hdrs : List HdrM) (data : List Nat) (bufferSize bs : Nat) :
    List FileInfoM :=
  scanLoopM (buildRegistry HdrM.sigs hdrs) data bs data.length
    (List.replicate (roundToMul bufferSize bs) 0) 0

/-- A header carving 4 bytes whenever the stream starts with byte
`AA`. -/
def bugHdr : HdrM :=
  ⟨"bin", [[170]], fun s => if s.take 1 = [170] then some 4 else none⟩

/-- Region exhibiting the overlap bug: a 4-byte carve starting at
offset 0 extends past the 2-byte scan buffer, and the engine re-scans
its third byte in the next buffer iteration. -/
def bugData : List Nat := [170, 0, 170, 0, 0, 0]

/-- At most the last element of a visited-scanner list is accepted:
the shape `FileRegistry.Search` visitation always has, since the walk
stops at the first acceptance. -/
def atMostLastAccepted {S : Type} (accept : S → Bool) : List S → Prop
  | [] => True
  | x :: rest => rest = [] ∨ (accept x = false ∧ atMostLastAccepted accept rest)

/-- Every scanner list stored in the table consists of scanners from
`pool`. -/
def RVals {S : Type} (tb : PTable (List S)) (pool : List S) : Prop :=
  ∀ key v, lookupM tb.elems key = some v → ∀ x ∈ v, x ∈ pool

theorem BRS.WFS_fill {b : BRS} (h : b.WFS) : b.fill.WFS := by
  obtain ⟨h1, h2, h3⟩ := h
  refine ⟨Nat.zero_le _, ?_, ?_⟩ <;> simp [BRS.fill] <;> omega

/-- Splitting a `take k` of a suffix into two consecutive chunks. -/
theorem take_chunk (l : List Nat) (p t k : Nat) (htk : t ≤ k) :
    (l.drop p).take t ++ (l.drop (p + t)).take (k - t) = (l.drop p).take k := by
  have h1 : l.drop (p + t) = (l.drop p).drop t := by
    rw [List.drop_drop, Nat.add_comm]
  rw [h1, ← List.take_add, Nat.add_sub_cancel' htk]

/-- Reading `k` bytes from a well-formed state with a positive buffer
capacity and at least `k` bytes of source left delivers exactly the
next `k` source bytes, reports no EOF, and advances the position by
`k` while preserving well-formedness. -/
theorem BRS.readAux_spec (k : Nat) (b : BRS) (acc : List Nat)
    (hwf : b.WFS) (hcap : 0 < b.bufCap) (hk : b.pos + k ≤ b.src.length) :
    ∃ b' : BRS,
      b.readAux k acc = (acc ++ (b.src.drop b.pos).take k, false, b') ∧
        b'.WFS ∧ b'.pos = b.pos + k ∧ b'.src = b.src ∧ b'.bufCap = b.bufCap := by
  induction k using Nat.strong_induction_on generalizing b acc with
  | _ k ih =>
    rw [BRS.readAux]
    by_cases hk0 : k = 0
    · subst hk0
      refine ⟨b, ?_, hwf, by simp [BRS.pos], rfl, rfl⟩
      simp
    · rw [dif_neg hk0]
      obtain ⟨h1, h2, h3⟩ := hwf
      have hposk : b.currPos + b.off + k ≤ b.src.length := hk
      by_cases hob : b.off < b.size
      · rw [dif_pos hob]
        have htpos : 0 < min k (b.size - b.off) :=
          lt_min (Nat.pos_of_ne_zero hk0) (by omega)
        have htk : min k (b.size - b.off) ≤ k := min_le_left _ _
        obtain ⟨b', heq, hwf', hpos', hsrc', hcap'⟩ :=
          ih (k - min k (b.size - b.off)) (by omega)
            { b with off := b.off + min k (b.size - b.off) }
            (acc ++ (b.src.drop (b.currPos + b.off)).take (min k (b.size - b.off)))
            ⟨by simp only []; omega, h2, h3⟩
            hcap
            (by simp only [BRS.pos]; omega)
        refine ⟨b', ?_, hwf', ?_, hsrc', hcap'⟩
        · rw [heq, List.append_assoc]
          simp only [BRS.pos]
          rw [show b.currPos + (b.off + min k (b.size - b.off)) =
                (b.currPos + b.off) + min k (b.size - b.off) by omega,
            take_chunk _ _ _ _ htk]
        · rw [hpos']
          simp only [BRS.pos]
          omega
      · rw [dif_neg hob]
        have hoe : b.off = b.size := by omega
        have hfill :
            b.fill = { b with currPos := b.currPos + b.off, off := 0, size := min b.bufCap (b.src.length - (b.currPos + b.size)) } := by
          simp only [BRS.fill, hoe, Nat.sub_self, Nat.sub_zero, Nat.zero_add]
        have hsz : (b.fill).size ≠ 0 := by
          rw [hfill]
          show min b.bufCap (b.src.length - (b.currPos + b.size)) ≠ 0
          have hrem : 0 < b.src.length - (b.currPos + b.size) := by omega
          have := lt_min hcap hrem
          omega
        rw [dif_neg hsz]
        set t := min k (b.fill).size with ht
        have htpos : 0 < t :=
          lt_min (Nat.pos_of_ne_zero hk0) (Nat.pos_of_ne_zero hsz)
        have htk : t ≤ k := min_le_left _ _
        have htsz : t ≤ (b.fill).size := min_le_right _ _
        have hwffill : ({ b.fill with off := t } : BRS).WFS := by
          refine ⟨htsz, ?_, ?_⟩
          · show (b.fill).size ≤ (b.fill).bufCap
            rw [hfill]
            exact min_le_left _ _
          · show (b.fill).currPos + (b.fill).size ≤ (b.fill).src.length
            rw [hfill]
            simp only []
            omega
        obtain ⟨b', heq, hwf', hpos', hsrc', hcap'⟩ :=
          ih (k - t) (by omega) { b.fill with off := t }
            (acc ++ ((b.fill).src.drop (b.fill).currPos).take t)
            hwffill
            (by
              show 0 < (b.fill).bufCap
              rw [hfill]
              exact hcap)
            (by
              show (b.fill).currPos + t + (k - t) ≤ (b.fill).src.length
              rw [hfill]
              simp only []
              omega)
        refine ⟨b', ?_, hwf', ?_, ?_, ?_⟩
        · rw [heq, List.append_assoc]
          have hpos2 : ({ b.fill with off := t } : BRS).pos = (b.currPos + b.off) + t := by
            simp only [BRS.pos]
            rw [hfill]
          have hsrc2 : ({ b.fill with off := t } : BRS).src = b.src := by
            rw [hfill]
          rw [hpos2, hsrc2, hfill]
          simp only [BRS.pos]
          rw [take_chunk _ _ _ _ htk]
        · rw [hpos']
          have hpos2 : ({ b.fill with off := t } : BRS).pos = (b.currPos + b.off) + t := by
            simp only [BRS.pos]
            rw [hfill]
          rw [hpos2]
          simp only [BRS.pos]
          omega
        · rw [hsrc']
          show (b.fill).src = b.src
          rw [hfill]
        · rw [hcap']
          show (b.fill).bufCap = b.bufCap
          rw [hfill]

/-- Claim C3 (code bug): on a stream beginning with `%PDF-` and
containing two `%%EOF` markers, the PDF validator succeeds but returns
12 — the distance from the end of the first marker to the end of the
second, plus the marker length — although the byte position just past
the last `%%EOF` (which the claim, and `ScanPDF`'s own documentation,
require) is 19.  With a single marker the two values coincide, which
is why the slip in `size = r.BytesRead() - n + len(eofMarker)` only
shows on multi-`%%EOF` files. -/
theorem scanPDF_two_eof_wrong_size :
    scanPDF pdfTwoEofStream 64 1000 = .ok 12 ∧
      (pdfTwoEofStream.drop 14).take 5 = eofMarkerBytes ∧
      pdfTwoEofStream.length = 19 ∧ (12 : Nat) ≠ 19 := by
  refine ⟨?_, by decide, by decide, by decide⟩
  simp [scanPDF, scanPDFLoop, seekAt, seekAtLoop, FReader.mk', FReader.read,
    FReader.discard, FReader.peek, FReader.bytesRead, FReader.bufferSize,
    BRS.read, BRS.readAux, BRS.fill, BRS.seekCur, BRS.peek, BRS.pos,
    goUint64, bytesIndex, bytesIndexAux, pdfHeaderBytes, eofMarkerBytes,
    pdfMaxFileSize, pdfTwoEofStream]

/-- Claim C7 (code bug): when the target straddles the boundary
between two internal fills, `SeekAt` finds it and repositions the
reader at its first byte (position 3), but it does so by calling
`Reader.Discard` with the negative count `idx - pad`; the Go
`uint64` conversion inside `Discard` then inflates the byte counter to
the reader's whole budget (100 here) and makes `SeekAt` return
`io.EOF` alongside `found = true`, so the next read yields `io.EOF`
instead of the target and every caller (`ScanPDF`,
`parseZipCentralDir`, …) treats the successful search as fatal. -/
theorem seekAt_straddle_bug :
    (seekAt (FReader.mk' straddleStream 4 100) straddleSig 100).1 = true ∧
      (seekAt (FReader.mk' straddleStream 4 100) straddleSig 100).2.1 =
        some .eof ∧
      (seekAt (FReader.mk' straddleStream 4 100) straddleSig 100).2.2.br.pos = 3 ∧
      (straddleStream.drop 3).take 2 = straddleSig ∧
      (seekAt (FReader.mk' straddleStream 4 100) straddleSig 100).2.2.n = 100 ∧
      ((seekAt (FReader.mk' straddleStream 4 100) straddleSig 100).2.2.read 2).1 = [] ∧
      ((seekAt (FReader.mk' straddleStream 4 100) straddleSig 100).2.2.read 2).2.1 =
        some .eof := by
  decide

/-- Collapsing the two integer divisions of the Go frame-size formula. -/
theorem mp3_frame_div (br sr : Nat) :
    1152 * br * 1000 / sr / 8 = 144 * br * 1000 / sr := by
  rw [Nat.div_div_eq_div_mul]
  have h1 : 1152 * br * 1000 = 8 * (144 * br * 1000) := by ring
  have h2 : sr * 8 = 8 * sr := by ring
  rw [h1, h2, Nat.mul_div_mul_left _ _ (by norm_num)]

/-- Claim C4 (amended): every 4-byte header accepted by
`parseMP3Header` — whether it declares MPEG version 1, 2 or 2.5 —
gets frame size `(144·bitrate·1000)/sample_rate` plus one if the
padding bit is set; the code does not halve the formula for MPEG 2 or
2.5 (it only switches the bitrate table). -/
theorem parseMP3Header_frameSize_formula (b : List Nat) (h : MP3Header)
    (hp : parseMP3Header b = some h) :
    h.frameSize =
      144 * h.bitrate * 1000 / h.sampleRate + (if h.padding then 1 else 0) := by
  unfold parseMP3Header at hp
  split_ifs at hp
  obtain rfl := Option.some.inj hp
  show mp3FrameSize b = _
  unfold mp3FrameSize
  rw [mp3_frame_div]

/-- Witness for C4: a concrete MPEG-1 Layer III header
(`FF FB 90 00`: 128 kbps, 44100 Hz, no padding) whose computed frame
size is 417 = 144·128·1000/44100. -/
theorem parseMP3Header_frameSize_formula_witness :
    parseMP3Header [255, 251, 144, 0] =
        some ⟨1, 3, 128, 44100, false, 417⟩ ∧
      (417 : Nat) =
        144 * 128 * 1000 / 44100 +
          (if (false : Bool) then 1 else 0) := by
  refine ⟨by decide, ?_⟩
  exact parseMP3Header_frameSize_formula [255, 251, 144, 0]
    ⟨1, 3, 128, 44100, false, 417⟩ (by decide)

/-- Counterexample for C4 as stated: the header `FF F3 80 00` declares
MPEG version 2, Layer III, 64 kbps, 22050 Hz; the code computes frame
size 417 — the *full* `(144·64·1000)/22050` — not half of it (208,
under either association of the halving). -/
theorem parseMP3Header_mpeg2_not_halved :
    parseMP3Header [255, 243, 128, 0] =
        some ⟨2, 3, 64, 22050, false, 417⟩ ∧
      (417 : Nat) = 144 * 64 * 1000 / 22050 ∧
      (417 : Nat) ≠ 144 * 64 * 1000 / 22050 / 2 ∧
      (417 : Nat) ≠ 144 * 64 * 1000 / (2 * 22050) := by
  refine ⟨by decide, by decide, by decide, by decide⟩

/-- Claim C6: once the running count of yielded bytes reaches the byte
budget, every `Read` and `ReadByte` call fails with `io.EOF`
regardless of how many bytes remain in the underlying source. -/
theorem reader_budget_exhausted_eof (r : FReader) (k : Nat)
    (h : r.size ≤ r.n) :
    r.read k = ([], some .eof, r) ∧ r.readByte = (0, some .eof, r) := by
  constructor
  · unfold FReader.read
    rw [if_pos (ge_iff_le.mpr h)]
  · unfold FReader.readByte
    rw [if_pos (ge_iff_le.mpr h)]

/-- Witness for C6: a reader with budget 2 already consumed, over a
source that still holds bytes. -/
theorem reader_budget_exhausted_eof_witness :
    (2 : Nat) ≤ 2 ∧
      ((⟨⟨[9, 9, 9, 9], 4, 0, 2, 2⟩, 2, 2⟩ : FReader).read 3 =
          ([], some .eof, ⟨⟨[9, 9, 9, 9], 4, 0, 2, 2⟩, 2, 2⟩) ∧
        (⟨⟨[9, 9, 9, 9], 4, 0, 2, 2⟩, 2, 2⟩ : FReader).readByte =
          (0, some .eof, ⟨⟨[9, 9, 9, 9], 4, 0, 2, 2⟩, 2, 2⟩)) :=
  ⟨le_refl 2, reader_budget_exhausted_eof ⟨⟨[9, 9, 9, 9], 4, 0, 2, 2⟩, 2, 2⟩ 3 (le_refl 2)⟩

/-- `Reader.Read` specification derived from `BRS.readAux_spec`:
below the byte budget, with `k` source bytes available, the read
yields exactly the next `k` bytes and advances `n` by `k`. -/
theorem FReader.read_spec (r : FReader) (k : Nat)
    (hwf : r.br.WFS) (hcap : 0 < r.br.bufCap) (hn : r.n < r.size)
    (hk : r.br.pos + k ≤ r.br.src.length) :
    ∃ b' : BRS,
      r.read k = ((r.br.src.drop r.br.pos).take k, none, ⟨b', r.n + k, r.size⟩) ∧
        b'.WFS ∧ b'.pos = r.br.pos + k ∧ b'.src = r.br.src ∧
        b'.bufCap = r.br.bufCap := by
  obtain ⟨b', heq, hwf', hpos', hsrc', hcap'⟩ :=
    BRS.readAux_spec k r.br [] hwf hcap hk
  have hlentake : ((r.br.src.drop r.br.pos).take k).length = k := by
    simp only [List.length_take, List.length_drop]
    omega
  refine ⟨b', ?_, hwf', hpos', hsrc', hcap'⟩
  unfold FReader.read
  rw [if_neg (by omega)]
  simp only [BRS.read]
  simp only [heq, List.nil_append, hlentake]
  simp

/-- `Reader.Discard` specification for a nonnegative count `k` that
stays inside the budget and the source: it skips exactly `k` bytes,
reports no error, and adds `k` to the byte counter. -/
theorem FReader.discard_spec (r : FReader) (k : Nat)
    (hwf : r.br.WFS)
    (h64 : r.br.pos + k < 2 ^ 64)
    (hlt : r.br.pos < r.size)
    (hfull : r.br.pos + k ≤ r.size)
    (hlen : r.br.pos + k ≤ r.br.src.length) :
    ∃ b' : BRS,
      r.discard (k : Int) = (k, none, ⟨b', r.n + k, r.size⟩) ∧
        b'.WFS ∧ b'.pos = r.br.pos + k ∧ b'.src = r.br.src ∧
        b'.bufCap = r.br.bufCap := by
  obtain ⟨h1, h2, h3⟩ := hwf
  have hg64k : goUint64 (k : Int) = k := by
    unfold goUint64
    rw [Int.emod_eq_of_lt (by positivity) (by exact_mod_cast (by omega : k < 2 ^ 64))]
    exact Int.toNat_ofNat k
  have hg64p : goUint64 (r.br.pos : Int) = r.br.pos := by
    unfold goUint64
    rw [Int.emod_eq_of_lt (by positivity) (by exact_mod_cast (by omega : r.br.pos < 2 ^ 64))]
    exact Int.toNat_ofNat _
  have htarget : ((r.br.pos : Int) + (k : Int)) = ((r.br.pos + k : Nat) : Int) := by
    push_cast
    ring
  unfold FReader.discard BRS.seekCur
  rw [htarget, if_neg (by exact not_lt.mpr (Int.natCast_nonneg _))]
  simp only [Int.toNat_ofNat]
  by_cases hin : r.br.currPos ≤ r.br.pos + k ∧ r.br.pos + k < r.br.currPos + r.br.size
  · rw [if_pos hin]
    simp only []
    have hprev : ((r.br.pos + k : Nat) : Int) - (k : Int) = (r.br.pos : Int) := by
      push_cast
      ring
    rw [hprev]
    rw [if_neg (by
      rw [hg64p]
      omega)]
    rw [hg64k, hg64p]
    refine ⟨{ r.br with off := r.br.pos + k - r.br.currPos }, ?_, ?_, ?_, rfl, rfl⟩
    · have hd : min k (r.size - r.br.pos) = k := by omega
      rw [hd, if_neg (by omega)]
    · exact ⟨by simp only [BRS.pos] at hin ⊢; omega, h2, h3⟩
    · simp only [BRS.pos] at hin ⊢
      omega
  · rw [if_neg hin]
    simp only []
    have hprev : ((r.br.pos + k : Nat) : Int) - (k : Int) = (r.br.pos : Int) := by
      push_cast
      ring
    rw [hprev]
    rw [if_neg (by
      rw [hg64p]
      omega)]
    rw [hg64k, hg64p]
    refine ⟨{ r.br with currPos := r.br.pos + k, off := 0, size := 0 }, ?_, ?_, ?_, rfl, rfl⟩
    · have hd : min k (r.size - r.br.pos) = k := by omega
      rw [hd, if_neg (by omega)]
    · exact ⟨le_refl 0, Nat.zero_le _, by simp only []; omega⟩
    · simp only [BRS.pos]
      omega

/-- Claim C8: for a 100-byte SQLite header with the correct magic and
a valid page size, the validator returns `fileSizeInPage * pageSize`
when `fileSizeInPage ≠ 0` and the change counter matches
`versionValidFor`, and zero otherwise; the zero result is fatal (no
carve), per the spec-modelled engine treatment. -/
theorem scanSQLite_spec (src : List Nat) (bufCap budget : Nat)
    (hlen : 100 ≤ src.length) (hcap : 0 < bufCap) (hbud : 0 < budget)
    (hmagic : src.take 16 = sqliteMagic)
    (hps : isPowerOfTwo (sqlitePageSize (src.take 100)) = true ∧
      512 ≤ sqlitePageSize (src.take 100) ∧
      sqlitePageSize (src.take 100) ≤ 65536) :
    (be32 (src.take 100) 28 ≠ 0 ∧
        be32 (src.take 100) 24 = be32 (src.take 100) 92 →
        scanSQLite src bufCap budget =
          .ok ⟨"", "", be32 (src.take 100) 28 * sqlitePageSize (src.take 100)⟩) ∧
      (¬(be32 (src.take 100) 28 ≠ 0 ∧
          be32 (src.take 100) 24 = be32 (src.take 100) 92) →
        scanSQLite src bufCap budget = .ok ⟨"", "", 0⟩ ∧
          scanResultFatal ⟨"", "", 0⟩ = true) := by
  have hwf : (FReader.mk' src bufCap budget).br.WFS := by
    refine ⟨le_refl 0, Nat.zero_le _, ?_⟩
    simp [FReader.mk']
  obtain ⟨b', heq, -, -, -, -⟩ :=
    FReader.read_spec (FReader.mk' src bufCap budget) 100 hwf hcap hbud
      (by simpa [FReader.mk', BRS.pos] using hlen)
  have hdr_eq :
      ((FReader.mk' src bufCap budget).br.src.drop
          (FReader.mk' src bufCap budget).br.pos).take 100 = src.take 100 := by
    simp [FReader.mk', BRS.pos]
  have hrun : scanSQLite src bufCap budget = sqliteParse (src.take 100) := by
    unfold scanSQLite
    rw [heq, hdr_eq]
  have hmagic100 : (src.take 100).take 16 = sqliteMagic := by
    rw [List.take_take]
    simpa using hmagic
  have hparse :
      sqliteParse (src.take 100) =
        .ok ⟨"", "",
          if be32 (src.take 100) 28 ≠ 0 ∧
              be32 (src.take 100) 24 = be32 (src.take 100) 92 then
            be32 (src.take 100) 28 * sqlitePageSize (src.take 100)
          else 0⟩ := by
    unfold sqliteParse
    rw [if_neg (by simp [hmagic100]), if_neg (by push_neg; exact ⟨hps.1, by omega, by omega⟩)]
  constructor
  · intro hcond
    rw [hrun, hparse, if_pos hcond]
  · intro hcond
    refine ⟨?_, rfl⟩
    rw [hrun, hparse, if_neg hcond]

/-- Witness for C8: on the concrete header the validator returns
`2 * 512 = 1024`. -/
theorem scanSQLite_spec_witness :
    100 ≤ sqliteWitnessSrc.length ∧
      scanSQLite sqliteWitnessSrc 128 1000 = .ok ⟨"", "", 1024⟩ := by
  refine ⟨by decide, ?_⟩
  have h := (scanSQLite_spec sqliteWitnessSrc 128 1000 (by decide) (by norm_num)
    (by norm_num) (by decide) (by decide)).1 (by decide)
  have h2 : be32 (sqliteWitnessSrc.take 100) 28 *
      sqlitePageSize (sqliteWitnessSrc.take 100) = 1024 := by decide
  rw [h2] at h
  exact h

/-- Claim C10: a local file entry with the data-descriptor flag
(bit 3) set and a non-zero declared size (compressed size, or
uncompressed size when the compression method is 0) is rejected with
the dedicated error, before any descriptor search or size skip. -/
theorem parseZipFileEntry_rejects_desc_with_size
    (src : List Nat) (bufCap budget : Nat) (d : ZipDec)
    (hcap : 0 < bufCap)
    (hlen : 26 + (zipEntryOfBytes (src.take 26)).filenameLength +
      (zipEntryOfBytes (src.take 26)).extraLength ≤ src.length)
    (hbud : 26 + (zipEntryOfBytes (src.take 26)).filenameLength +
      (zipEntryOfBytes (src.take 26)).extraLength < budget)
    (h64 : budget < 2 ^ 64)
    (hflag : (zipEntryOfBytes (src.take 26)).flags &&& 8 ≠ 0)
    (hsize : (if (zipEntryOfBytes (src.take 26)).compression ≠ 0 then
        (zipEntryOfBytes (src.take 26)).compressedSize
      else (zipEntryOfBytes (src.take 26)).uncompressedSize) ≠ 0) :
    (parseZipFileEntry d (FReader.mk' src bufCap budget)).1 =
      .error .descriptorWithSize := by
  have hwf : (FReader.mk' src bufCap budget).br.WFS := by
    refine ⟨le_refl 0, Nat.zero_le _, ?_⟩
    simp [FReader.mk']
  obtain ⟨b1, heq1, hwf1, hpos1, hsrc1, hcap1⟩ :=
    FReader.read_spec (FReader.mk' src bufCap budget) 26 hwf hcap
      (by simp only [FReader.mk']; omega)
      (by simp only [FReader.mk', BRS.pos]; omega)
  have heq1' : (FReader.mk' src bufCap budget).read 26 =
      (src.take 26, none, ⟨b1, 26, budget⟩) := by
    rw [heq1]
    rfl
  have hpos1' : b1.pos = 26 := by
    rw [hpos1]
    rfl
  have hsrc1' : b1.src = src := hsrc1
  have hcap1' : b1.bufCap = bufCap := hcap1
  obtain ⟨b2, heq2, hwf2, hpos2, hsrc2, hcap2⟩ :=
    FReader.read_spec ⟨b1, 26, budget⟩
      (zipEntryOfBytes (src.take 26)).filenameLength hwf1
      (by show 0 < b1.bufCap; rw [hcap1']; exact hcap)
      (by show (26 : Nat) < budget; omega)
      (by
        show b1.pos + _ ≤ b1.src.length
        rw [hpos1', hsrc1']
        omega)
  have heq2' : ({ br := b1, n := 26, size := budget } : FReader).read
        (zipEntryOfBytes (src.take 26)).filenameLength =
      ((b1.src.drop b1.pos).take (zipEntryOfBytes (src.take 26)).filenameLength,
        none,
        ⟨b2, 26 + (zipEntryOfBytes (src.take 26)).filenameLength, budget⟩) := by
    rw [heq2]
  have hpos2' : b2.pos = 26 + (zipEntryOfBytes (src.take 26)).filenameLength := by
    rw [hpos2]
    show b1.pos + _ = _
    rw [hpos1']
  have hsrc2' : b2.src = src := by
    rw [hsrc2]
    exact hsrc1'
  unfold parseZipFileEntry
  rw [heq1']
  simp only []
  rw [heq2']
  simp only []
  by_cases hex : (zipEntryOfBytes (src.take 26)).extraLength > 0
  · obtain ⟨b3, heq3, hwf3, hpos3, hsrc3, hcap3⟩ :=
      FReader.discard_spec
        ⟨b2, 26 + (zipEntryOfBytes (src.take 26)).filenameLength, budget⟩
        (zipEntryOfBytes (src.take 26)).extraLength hwf2
        (by
          show b2.pos + _ < 2 ^ 64
          rw [hpos2']
          omega)
        (by
          show b2.pos < budget
          rw [hpos2']
          omega)
        (by
          show b2.pos + _ ≤ budget
          rw [hpos2']
          omega)
        (by
          show b2.pos + _ ≤ b2.src.length
          rw [hpos2', hsrc2']
          omega)
    rw [if_pos hex, heq3]
    simp only []
    rw [if_pos ⟨hflag, hsize⟩]
  · rw [if_neg hex]
    simp only []
    rw [if_pos ⟨hflag, hsize⟩]

/-- Witness for C10: the concrete entry is rejected with the
dedicated error. -/
theorem parseZipFileEntry_rejects_desc_with_size_witness :
    (zipEntryOfBytes (zipWitnessSrc.take 26)).flags &&& 8 ≠ 0 ∧
      (parseZipFileEntry zipDec0 (FReader.mk' zipWitnessSrc 16 100)).1 =
        .error .descriptorWithSize := by
  refine ⟨by decide, ?_⟩
  exact parseZipFileEntry_rejects_desc_with_size zipWitnessSrc 16 100 zipDec0
    (by norm_num) (by decide) (by decide) (by norm_num) (by decide) (by decide)

/-- If the marker loop succeeds with `size`, the loop consumed exactly
`size ≤ data.length` bytes and the last two of them are `FF D9`. -/
theorem jpegRun_ok (data : List Nat) (size : Nat) (pos : Nat) (st : JState)
    (hpos : pos ≤ data.length) (hinv : JInv data pos st)
    (hok : jpegRun data pos st = .ok size) :
    2 ≤ size ∧ size ≤ data.length ∧
      data.getD (size - 2) 0 = 255 ∧ data.getD (size - 1) 0 = 217 := by
  induction pos, st using jpegRun.induct data with
  | case1 pos h ih =>
    rw [jpegRun, dif_pos h] at hok
    refine ih (by omega) ⟨by omega, ?_, ?_⟩ hok
    · rw [show pos + 2 - 2 = pos by omega]
    · rw [show pos + 2 - 1 = pos + 1 by omega]
  | case2 pos h =>
    rw [jpegRun, dif_neg h] at hok
    simp at hok
  | case3 pos t0 t1 hne h ih =>
    rw [jpegRun, if_pos hne, dif_pos h] at hok
    obtain ⟨hp2, hi1, hi2⟩ := hinv
    refine ih (by omega) ⟨by omega, ?_, ?_⟩ hok
    · rw [show pos + 1 - 2 = pos - 1 by omega]
      exact hi2
    · rw [Nat.add_sub_cancel]
  | case4 pos t0 t1 hne h =>
    rw [jpegRun, if_pos hne, dif_neg h] at hok
    simp at hok
  | case5 pos t0 hff ih =>
    rw [jpegRun, if_neg hff] at hok
    have hok' : jpegRun data pos JState.outer = .ok size := by simpa using hok
    exact ih hpos hinv.1 hok'
  | case6 pos t0 t1 hff hne ih =>
    rw [jpegRun, if_neg hff, if_neg hne] at hok
    obtain ⟨hp2, hi1, hi2⟩ := hinv
    push_neg at hff
    exact ih hpos ⟨hp2, by rw [hi1, hff], hi2⟩ hok
  | case7 pos h ih =>
    rw [jpegRun] at hok
    have hok' : jpegRun data (pos + 1) (JState.fill (data.getD pos 0)) = .ok size := by
      rw [dif_pos h] at hok
      simpa using hok
    obtain ⟨hp2, hi1, hi2⟩ := hinv
    refine ih (by omega) ⟨by omega, ?_, ?_⟩ hok'
    · rw [show pos + 1 - 2 = pos - 1 by omega]
      exact hi2
    · rw [Nat.add_sub_cancel]
  | case8 pos h =>
    rw [jpegRun] at hok
    rw [dif_neg h] at hok
    simp at hok
  | case9 pos m hne ih =>
    rw [jpegRun, if_neg hne] at hok
    exact ih hpos hinv hok
  | case10 pos =>
    rw [jpegRun] at hok
    simp only [if_pos rfl] at hok
    obtain ⟨hp2, hi1, hi2⟩ := hinv
    injection hok with hok
    subst hok
    exact ⟨hp2, hpos, hi1, hi2⟩
  | case11 pos m hne hrst ih =>
    rw [jpegRun, if_neg hne, if_pos hrst] at hok
    exact ih hpos hinv.1 hok
  | case12 pos m hne hrst h hlt =>
    rw [jpegRun, if_neg hne, if_neg hrst, dif_pos h, if_pos hlt] at hok
    simp at hok
  | case13 pos m hne hrst h hlt hseg h2 ih =>
    rw [jpegRun, if_neg hne, if_neg hrst, dif_pos h, if_neg hlt, if_pos hseg,
      dif_pos h2] at hok
    refine ih h2 ?_ hok
    show 2 ≤ pos + 2 + (data.getD pos 0 * 256 + data.getD (pos + 1) 0 - 2)
    omega
  | case14 pos m hne hrst h hlt hseg h2 =>
    rw [jpegRun, if_neg hne, if_neg hrst, dif_pos h, if_neg hlt, if_pos hseg,
      dif_neg h2] at hok
    simp at hok
  | case15 pos m hne hrst h hlt hseg =>
    rw [jpegRun, if_neg hne, if_neg hrst, dif_pos h, if_neg hlt] at hok
    rw [if_neg (by simpa using hseg)] at hok
    simp at hok
  | case16 pos m hne hrst h =>
    rw [jpegRun, if_neg hne, if_neg hrst, dif_neg h] at hok
    simp at hok

/-- Claim C9: (i) whenever the JPEG validator accepts, the returned
size is the count of bytes read at the moment the terminal marker was
consumed — the last two consumed bytes are `FF D9`; (ii) a segment
whose 2-byte big-endian declared length is below 2 makes the
validator fail, for every continuation of the stream. -/
theorem scanJPEG_spec :
    (∀ (data : List Nat) (size : Nat), scanJPEG data = .ok size →
      2 ≤ size ∧ size ≤ data.length ∧
        data.getD (size - 2) 0 = 255 ∧ data.getD (size - 1) 0 = 217) ∧
    (∀ (rest : List Nat) (l0 l1 : Nat), l0 * 256 + l1 < 2 →
      scanJPEG (255 :: 216 :: 255 :: 192 :: l0 :: l1 :: rest) =
        .error .invalid) := by
  constructor
  · intro data size hok
    unfold scanJPEG at hok
    split_ifs at hok with h1 h2
    · exact jpegRun_ok data size 2 .outer h1 (le_refl 2) hok
  · intro rest l0 l1 hl
    unfold scanJPEG
    rw [if_pos (by simp only [List.length_cons]; omega), if_pos ⟨rfl, rfl⟩]
    rw [jpegRun, dif_pos (by simp only [List.length_cons]; omega)]
    rw [show (255 :: 216 :: 255 :: 192 :: l0 :: l1 :: rest).getD 2 0 = 255 from rfl,
      show (255 :: 216 :: 255 :: 192 :: l0 :: l1 :: rest).getD 3 0 = 192 from rfl]
    rw [jpegRun, if_neg (by norm_num), if_neg (by norm_num)]
    rw [jpegRun, if_neg (by norm_num)]
    rw [jpegRun, if_neg (by norm_num), if_neg (by norm_num),
      dif_pos (by simp only [List.length_cons]; omega)]
    rw [show (255 :: 216 :: 255 :: 192 :: l0 :: l1 :: rest).getD 4 0 = l0 from rfl,
      show (255 :: 216 :: 255 :: 192 :: l0 :: l1 :: rest).getD 5 0 = l1 from rfl]
    rw [if_pos hl]

/-- Witness for C9: the minimal JPEG `FF D8 FF D9` is accepted with
size 4 and indeed ends in `FF D9`; the stream
`FF D8 FF C0 00 01` (declared segment length 1) is rejected. -/
theorem scanJPEG_spec_witness :
    scanJPEG [255, 216, 255, 217] = .ok 4 ∧
      (2 ≤ 4 ∧ 4 ≤ ([255, 216, 255, 217] : List Nat).length ∧
        ([255, 216, 255, 217] : List Nat).getD (4 - 2) 0 = 255 ∧
        ([255, 216, 255, 217] : List Nat).getD (4 - 1) 0 = 217) ∧
      scanJPEG (255 :: 216 :: 255 :: 192 :: 0 :: 1 :: []) = .error .invalid := by
  have hrun : scanJPEG [255, 216, 255, 217] = .ok 4 := by
    simp [scanJPEG, jpegRun]
  refine ⟨hrun, scanJPEG_spec.1 [255, 216, 255, 217] 4 hrun,
    scanJPEG_spec.2 [] 0 1 (by norm_num)⟩

theorem insertMarks_monotone (key : List Nat) (t : Nat → Nat) (h : Nat) :
    ∀ i, t i ≤ (insertMarks t h key).1 i := by
  induction key generalizing t h with
  | nil => intro i; exact le_refl _
  | cons b rest ih =>
    intro i
    refine le_trans ?_ (ih _ (hashStep h b) i)
    by_cases hi : i = hashStep h b
    · simp [hi]
    · simp [hi]

theorem insertMarks_le_two (key : List Nat) (t : Nat → Nat) (h : Nat)
    (hb : ∀ i, t i ≤ 2) : ∀ i, (insertMarks t h key).1 i ≤ 2 := by
  induction key generalizing t h with
  | nil => exact hb
  | cons b rest ih =>
    refine ih _ (hashStep h b) ?_
    intro i
    by_cases hi : i = hashStep h b
    · simp [hi]
      exact hb _
    · simpa [hi] using hb i

theorem insertMarks_marks (key : List Nat) (t : Nat → Nat) (h : Nat) :
    ∀ k, 0 < k → k ≤ key.length →
      1 ≤ (insertMarks t h key).1 ((key.take k).foldl hashStep h) := by
  induction key generalizing t h with
  | nil =>
    intro k hk hk2
    simp at hk2
    omega
  | cons b rest ih =>
    intro k hk hk2
    match k, hk with
    | 1, _ =>
      simp only [List.take_succ_cons, List.take_zero, List.foldl_cons, List.foldl_nil]
      show 1 ≤ (insertMarks _ (hashStep h b) rest).1 (hashStep h b)
      refine le_trans ?_ (insertMarks_monotone rest _ (hashStep h b) (hashStep h b))
      simp
    | k + 2, _ =>
      have hk3 : k + 1 ≤ rest.length := by
        simpa using hk2
      simpa only [List.take_succ_cons, List.foldl_cons] using
        ih _ (hashStep h b) (k + 1) (by omega) hk3

theorem insertMarks_final (key : List Nat) (t : Nat → Nat) (h : Nat) :
    (insertMarks t h key).2 = key.foldl hashStep h := by
  induction key generalizing t h with
  | nil => rfl
  | cons b rest ih => simpa using ih _ (hashStep h b)

theorem lookupM_insert {V : Type} (tb : PTable V) (key sig : List Nat) (v : V) :
    lookupM (tb.insert key v).elems sig =
      if sig = key then some v else lookupM tb.elems sig := by
  unfold PTable.insert lookupM
  simp only [List.find?]
  by_cases hs : sig = key
  · subst hs
    simp
  · have : (key == sig) = false := by
      simp
      intro hc
      exact hs hc.symm
    simp [this, hs]

theorem table_insert_monotone {V : Type} (tb : PTable V) (key : List Nat) (v : V)
    (hb : ∀ i, tb.table i ≤ 2) :
    ∀ i, tb.table i ≤ (tb.insert key v).table i := by
  intro i
  unfold PTable.insert
  simp only []
  by_cases hi : i = (insertMarks tb.table 0 key).2
  · rw [if_pos hi]
    exact le_trans (hb i) (by norm_num)
  · rw [if_neg hi]
    exact insertMarks_monotone key tb.table 0 i

theorem TblWF_insert {V : Type} (tb : PTable V) (key : List Nat) (v : V)
    (hkey : key ≠ []) (hwf : TblWF tb) : TblWF (tb.insert key v) := by
  obtain ⟨h0, h1, h2⟩ := hwf
  have hmono := table_insert_monotone tb key v h0
  have hb2 : ∀ i, (tb.insert key v).table i ≤ 2 := by
    intro i
    unfold PTable.insert
    simp only []
    by_cases hi : i = (insertMarks tb.table 0 key).2
    · rw [if_pos hi]
    · rw [if_neg hi]
      exact insertMarks_le_two key tb.table 0 h0 i
  have hkeyslot : (tb.insert key v).table (sigHash key) = 2 := by
    unfold PTable.insert
    simp only []
    rw [if_pos]
    rw [insertMarks_final]
    rfl
  refine ⟨hb2, ?_, ?_⟩
  · intro sig hsig
    rw [lookupM_insert] at hsig
    by_cases hs : sig = key
    · rw [hs]
      exact hkeyslot
    · rw [if_neg hs] at hsig
      have := h1 sig hsig
      have := hmono (sigHash sig)
      have := hb2 (sigHash sig)
      omega
  · intro sig hsig k hk hk2
    rw [lookupM_insert] at hsig
    by_cases hs : sig = key
    · subst hs
      have hm := insertMarks_marks sig tb.table 0 k hk hk2
      have : 1 ≤ (insertMarks tb.table 0 sig).1 (sigHash (sig.take k)) := hm
      unfold PTable.insert
      simp only []
      by_cases hi : sigHash (sig.take k) = (insertMarks tb.table 0 sig).2
      · rw [if_pos hi]
        norm_num
      · rw [if_neg hi]
        exact this
    · rw [if_neg hs] at hsig
      exact le_trans (h2 sig hsig k hk hk2) (hmono _)

theorem TblWF_foldl_insert {V : Type} {A : Type}
    (f : PTable V → A → List Nat) (g : PTable V → A → V) (l : List A)
    (hne : ∀ tb a, a ∈ l → f tb a ≠ []) :
    ∀ tb : PTable V, TblWF tb →
      TblWF (l.foldl (fun t a => t.insert (f t a) (g t a)) tb) := by
  induction l with
  | nil => intro tb h; exact h
  | cons a rest ih =>
    intro tb h
    simp only [List.foldl_cons]
    refine ih (fun tb' a' ha' => hne tb' a' (List.mem_cons_of_mem _ ha')) _ ?_
    exact TblWF_insert tb (f tb a) (g tb a) (hne tb a (List.mem_cons_self _ _)) h

theorem TblWF_empty {V : Type} : TblWF (PTable.empty V) := by
  refine ⟨fun i => by simp [PTable.empty], ?_, ?_⟩ <;>
    intro sig hsig <;> simp [PTable.empty, lookupM] at hsig

theorem TblWF_registryAdd {S : Type} (sigsOf : S → List (List Nat))
    (tb : PTable (List S)) (sc : S)
    (hne : ∀ sig ∈ sigsOf sc, sig ≠ []) (hwf : TblWF tb) :
    TblWF (registryAdd sigsOf tb sc) := by
  unfold registryAdd
  exact TblWF_foldl_insert (fun _ sig => sig)
    (fun t sig => (lookupM t.elems sig).getD [] ++ [sc]) (sigsOf sc)
    (fun _ sig hs => hne sig hs) tb hwf

theorem TblWF_buildRegistry {S : Type} (sigsOf : S → List (List Nat))
    (scanners : List S)
    (hne : ∀ sc ∈ scanners, ∀ sig ∈ sigsOf sc, sig ≠ []) :
    TblWF (buildRegistry sigsOf scanners) := by
  unfold buildRegistry
  have : ∀ (l : List S), (∀ sc ∈ l, ∀ sig ∈ sigsOf sc, sig ≠ []) →
      ∀ tb, TblWF tb → TblWF (l.foldl (registryAdd sigsOf) tb) := by
    intro l
    induction l with
    | nil => intro _ tb h; exact h
    | cons sc rest ih =>
      intro hl tb h
      simp only [List.foldl_cons]
      refine ih (fun sc' hsc' => hl sc' (List.mem_cons_of_mem _ hsc')) _ ?_
      exact TblWF_registryAdd sigsOf tb sc (hl sc (List.mem_cons_self _ _)) h
  exact this scanners hne _ TblWF_empty

theorem sigHash_snoc (s : List Nat) (b : Nat) :
    sigHash (s ++ [b]) = hashStep (sigHash s) b := by
  unfold sigHash
  rw [List.foldl_append]
  rfl

theorem naiveAux_nil_of_unregistered {S : Type} (tb : PTable (List S))
    (accept : S → Bool) (rest : List Nat) :
    ∀ seen, (∀ j, 1 ≤ j → lookupM tb.elems (seen ++ rest.take j) = none) →
      naiveAux tb accept seen rest = [] := by
  induction rest with
  | nil => intro seen h; rfl
  | cons b rest' ih =>
    intro seen h
    unfold naiveAux
    have h1 : lookupM tb.elems (seen ++ [b]) = none := by
      have := h 1 (le_refl 1)
      simpa using this
    rw [h1]
    simp only []
    rw [if_neg (by simp)]
    simp only [List.nil_append]
    refine ih (seen ++ [b]) ?_
    intro j hj
    have := h (j + 1) (by omega)
    simpa [List.append_assoc] using this

theorem walk_eq_naive_aux {S : Type} (tb : PTable (List S))
    (accept : S → Bool) (hwf : TblWF tb) (rest : List Nat) :
    ∀ seen, walkVisits tb accept seen rest (sigHash seen) =
      naiveAux tb accept seen rest := by
  obtain ⟨h0, h1, h2⟩ := hwf
  induction rest with
  | nil => intro seen; rfl
  | cons b rest' ih =>
    intro seen
    unfold walkVisits naiveAux
    rw [show hashStep (sigHash seen) b = sigHash (seen ++ [b]) from
      (sigHash_snoc seen b).symm]
    by_cases hz : tb.table (sigHash (seen ++ [b])) = 0
    · rw [if_pos hz]
      have hnone : lookupM tb.elems (seen ++ [b]) = none := by
        by_contra hcon
        have := h1 (seen ++ [b]) hcon
        omega
      rw [hnone]
      simp only []
      rw [if_neg (by simp)]
      simp only [List.nil_append]
      have : naiveAux tb accept (seen ++ [b]) rest' = [] := by
        refine naiveAux_nil_of_unregistered tb accept rest' (seen ++ [b]) ?_
        intro j hj
        by_contra hcon
        have hreg := h2 (seen ++ [b] ++ rest'.take j) hcon (seen.length + 1)
          (by omega) (by simp)
        have htake : (seen ++ [b] ++ rest'.take j).take (seen.length + 1) =
            seen ++ [b] := List.take_left' (by simp)
        rw [htake] at hreg
        omega
      rw [this]
    · rw [if_neg hz]
      by_cases h2m : tb.table (sigHash (seen ++ [b])) = 2
      · rw [if_pos h2m]
        simp only []
        split
        · rfl
        · exact congrArg _ (ih (seen ++ [b]))
      · rw [if_neg h2m]
        have hnone : lookupM tb.elems (seen ++ [b]) = none := by
          by_contra hcon
          exact h2m (h1 (seen ++ [b]) hcon)
        rw [hnone]
        simp only []
        rw [if_neg (by simp), if_neg (by simp)]
        simp only [List.nil_append]
        exact ih (seen ++ [b])

/-- Claim C5: the 65,536-entry rolling-hash table walk used by the
registry is equivalent to the naive scan that checks every
successively longer prefix of the input against the registered
signature map, visiting each prefix's scanners once, in registration
order, and stopping at the first acceptance — for any registry built
by inserting non-empty signatures. -/
theorem registry_search_equiv_naive {S : Type} (sigsOf : S → List (List Nat))
    (scanners : List S) (accept : S → Bool) (data : List Nat)
    (hne : ∀ sc ∈ scanners, ∀ sig ∈ sigsOf sc, sig ≠ []) :
    searchVisits (buildRegistry sigsOf scanners) accept data =
      naiveVisits (buildRegistry sigsOf scanners) accept data := by
  unfold searchVisits naiveVisits
  by_cases hz : (buildRegistry sigsOf scanners).elems.length = 0
  · rw [if_pos hz]
    have hempty : ∀ sig,
        lookupM (buildRegistry sigsOf scanners).elems sig = none := by
      intro sig
      rw [List.length_eq_zero] at hz
      simp [lookupM, hz]
    exact (naiveAux_nil_of_unregistered _ accept data []
      (fun j _ => hempty _)).symm
  · rw [if_neg hz]
    have := walk_eq_naive_aux (buildRegistry sigsOf scanners) accept
      (TblWF_buildRegistry sigsOf scanners hne) data []
    simpa [sigHash] using this

theorem roundToMul_dvd (a m : Nat) : m ∣ roundToMul a m :=
  dvd_mul_left m ((a + m - 1) / m)

theorem roundToMul_mono (a b m : Nat) (h : a ≤ b) :
    roundToMul a m ≤ roundToMul b m :=
  Nat.mul_le_mul_right m (Nat.div_le_div_right (by omega))

theorem roundToMul_of_dvd (a m : Nat) (hm : 0 < m) (h : m ∣ a) :
    roundToMul a m = a := by
  obtain ⟨c, rfl⟩ := h
  show (m * c + m - 1) / m * m = m * c
  have he : m * c + m - 1 = m * c + (m - 1) := by omega
  rw [he, Nat.mul_add_div hm, Nat.div_eq_of_lt (by omega)]
  ring

theorem roundToMul_div_pos (s m : Nat) (hs : 0 < s) (hm : 0 < m) :
    1 ≤ roundToMul s m / m := by
  show 1 ≤ (s + m - 1) / m * m / m
  rw [Nat.mul_div_cancel _ hm, Nat.le_div_iff_mul_le hm]
  omega

theorem roundToMul_div_mul (a m : Nat) : roundToMul a m / m * m = roundToMul a m := by
  show (a + m - 1) / m * m / m * m = (a + m - 1) / m * m
  rcases Nat.eq_zero_or_pos m with hm | hm
  · simp [hm]
  · rw [Nat.mul_div_cancel _ hm]

theorem fillBuf_length (data : List Nat) (blockOffset : Nat) (buf : List Nat) :
    (fillBuf data blockOffset buf).length = buf.length := by
  simp [fillBuf, nReadAt, List.length_take, List.length_drop]

theorem runVisit_members {S : Type} (accept : S → Bool) (l : List S) :
    ∀ x ∈ (runVisit accept l).1, x ∈ l := by
  induction l with
  | nil => intro x hx; simp [runVisit] at hx
  | cons a rest ih =>
    intro x hx
    unfold runVisit at hx
    by_cases ha : accept a
    · rw [if_pos ha] at hx
      simp at hx
      simp [hx]
    · rw [if_neg ha] at hx
      simp only [List.mem_cons] at hx
      rcases hx with rfl | hx
      · exact List.mem_cons_self _ _
      · exact List.mem_cons_of_mem _ (ih x hx)

theorem runVisit_all_false {S : Type} (accept : S → Bool) (l : List S)
    (h : (runVisit accept l).2 = false) :
    ∀ x ∈ (runVisit accept l).1, accept x = false := by
  induction l with
  | nil => intro x hx; simp [runVisit] at hx
  | cons a rest ih =>
    intro x hx
    unfold runVisit at h hx
    by_cases ha : accept a
    · rw [if_pos ha] at h
      simp at h
    · rw [if_neg ha] at hx h
      simp only [List.mem_cons] at hx
      rcases hx with rfl | hx
      · exact ha |> fun hh => by simpa using hh
      · exact ih h x hx

theorem runVisit_aml {S : Type} (accept : S → Bool) (l : List S) :
    atMostLastAccepted accept (runVisit accept l).1 := by
  induction l with
  | nil => exact trivial
  | cons a rest ih =>
    unfold runVisit
    by_cases ha : accept a
    · rw [if_pos ha]
      exact Or.inl rfl
    · rw [if_neg ha]
      exact Or.inr ⟨by simpa using ha, ih⟩

theorem aml_append {S : Type} (accept : S → Bool) (l1 l2 : List S)
    (h1 : ∀ x ∈ l1, accept x = false) (h2 : atMostLastAccepted accept l2) :
    atMostLastAccepted accept (l1 ++ l2) := by
  induction l1 with
  | nil => simpa using h2
  | cons x l1' ih =>
    refine Or.inr ⟨h1 x (List.mem_cons_self _ _), ?_⟩
    exact ih (fun y hy => h1 y (List.mem_cons_of_mem _ hy))

theorem walkVisits_aml {S : Type} (tb : PTable (List S)) (accept : S → Bool)
    (rest : List Nat) : ∀ seen h,
    atMostLastAccepted accept (walkVisits tb accept seen rest h) := by
  induction rest with
  | nil => intro seen h; exact trivial
  | cons b rest' ih =>
    intro seen h
    unfold walkVisits
    by_cases hz : tb.table (hashStep h b) = 0
    · rw [if_pos hz]
      exact trivial
    · rw [if_neg hz]
      by_cases h2 : tb.table (hashStep h b) = 2
      · simp only [if_pos h2]
        cases hlk : lookupM tb.elems (seen ++ [b]) with
        | some scs =>
          simp only [hlk]
          by_cases hst : (runVisit accept scs).2
          · rw [if_pos hst]
            exact runVisit_aml accept scs
          · rw [if_neg hst]
            exact aml_append accept _ _
              (runVisit_all_false accept scs (by simpa using hst)) (ih _ _)
        | none =>
          simp only [hlk]
          rw [if_neg (by simp)]
          simpa using ih (seen ++ [b]) (hashStep h b)
      · simp only [if_neg h2]
        rw [if_neg (by simp)]
        simpa using ih (seen ++ [b]) (hashStep h b)

theorem searchVisits_aml {S : Type} (tb : PTable (List S)) (accept : S → Bool)
    (data : List Nat) : atMostLastAccepted accept (searchVisits tb accept data) := by
  unfold searchVisits
  by_cases hz : tb.elems.length = 0
  · rw [if_pos hz]
    exact trivial
  · rw [if_neg hz]
    exact walkVisits_aml tb accept data [] 0

theorem walkVisits_members {S : Type} (tb : PTable (List S)) (accept : S → Bool)
    (rest : List Nat) : ∀ seen h x, x ∈ walkVisits tb accept seen rest h →
      ∃ key v, lookupM tb.elems key = some v ∧ x ∈ v := by
  induction rest with
  | nil => intro seen h x hx; simp [walkVisits] at hx
  | cons b rest' ih =>
    intro seen h x hx
    unfold walkVisits at hx
    by_cases hz : tb.table (hashStep h b) = 0
    · rw [if_pos hz] at hx
      simp at hx
    · rw [if_neg hz] at hx
      by_cases h2 : tb.table (hashStep h b) = 2
      · simp only [if_pos h2] at hx
        cases hlk : lookupM tb.elems (seen ++ [b]) with
        | some scs =>
          simp only [hlk] at hx
          by_cases hst : (runVisit accept scs).2
          · rw [if_pos hst] at hx
            exact ⟨seen ++ [b], scs, hlk, runVisit_members accept scs x hx⟩
          · rw [if_neg hst] at hx
            rcases List.mem_append.1 hx with hx | hx
            · exact ⟨seen ++ [b], scs, hlk, runVisit_members accept scs x hx⟩
            · exact ih _ _ x hx
        | none =>
          simp only [hlk] at hx
          rw [if_neg (by simp)] at hx
          simp only [List.nil_append] at hx
          exact ih _ _ x hx
      · simp only [if_neg h2] at hx
        rw [if_neg (by simp)] at hx
        simp only [List.nil_append] at hx
        exact ih _ _ x hx

theorem searchVisits_members {S : Type} (tb : PTable (List S)) (accept : S → Bool)
    (data : List Nat) (x : S) (hx : x ∈ searchVisits tb accept data) :
    ∃ key v, lookupM tb.elems key = some v ∧ x ∈ v := by
  unfold searchVisits at hx
  by_cases hz : tb.elems.length = 0
  · rw [if_pos hz] at hx
    simp at hx
  · rw [if_neg hz] at hx
    exact walkVisits_members tb accept data [] 0 x hx

theorem RVals_insert {S : Type} (tb : PTable (List S)) (pool : List S)
    (key : List Nat) (v : List S) (hv : ∀ x ∈ v, x ∈ pool)
    (h : RVals tb pool) : RVals (tb.insert key v) pool := by
  intro key' v' hl x hx
  rw [lookupM_insert] at hl
  by_cases hk : key' = key
  · rw [if_pos hk] at hl
    cases hl
    exact hv x hx
  · rw [if_neg hk] at hl
    exact h key' v' hl x hx

theorem RVals_registryAdd {S : Type} (sigsOf : S → List (List Nat))
    (tb : PTable (List S)) (sc : S) (pool : List S) (hsc : sc ∈ pool)
    (h : RVals tb pool) : RVals (registryAdd sigsOf tb sc) pool := by
  unfold registryAdd
  generalize sigsOf sc = l
  induction l generalizing tb with
  | nil => exact h
  | cons sig rest ih =>
    simp only [List.foldl_cons]
    refine ih _ (RVals_insert tb pool sig _ ?_ h)
    intro x hx
    rcases List.mem_append.1 hx with hx | hx
    · cases hl : lookupM tb.elems sig with
      | none => rw [hl] at hx; simp at hx
      | some v0 =>
        rw [hl] at hx
        exact h sig v0 hl x hx
    · rcases List.mem_singleton.1 hx with rfl
      exact hsc

theorem RVals_build {S : Type} (sigsOf : S → List (List Nat)) (scanners : List S) :
    RVals (buildRegistry sigsOf scanners) scanners := by
  unfold buildRegistry
  have main : ∀ (l pool : List S) (tb : PTable (List S)),
      (∀ sc ∈ l, sc ∈ pool) → RVals tb pool →
      RVals (l.foldl (registryAdd sigsOf) tb) pool := by
    intro l
    induction l with
    | nil => intro pool tb _ h; exact h
    | cons sc rest ih =>
      intro pool tb hl h
      simp only [List.foldl_cons]
      refine ih pool _ (fun sc' hsc' => hl sc' (List.mem_cons_of_mem _ hsc')) ?_
      exact RVals_registryAdd sigsOf tb sc pool (hl sc (List.mem_cons_self _ _)) h
  refine main scanners scanners _ (fun sc hsc => hsc) ?_
  intro key v hl
  simp [PTable.empty, lookupM] at hl

theorem cand_emit (accept : HdrM → Bool) (scanRes : HdrM → Option Nat) (off : Nat)
    (visited : List HdrM)
    (hacc : ∀ (x : HdrM) (s : Nat), scanRes x = some s → 0 < s → accept x = true)
    (haml : atMostLastAccepted accept visited)
    (hnz : ∀ x ∈ visited, scanRes x ≠ some 0) :
    (emitRecords scanRes off visited = [] ∧ candSize scanRes visited = 0) ∨
    (∃ fmt, emitRecords scanRes off visited =
        [⟨off, candSize scanRes visited, fmt⟩] ∧ 0 < candSize scanRes visited) := by
  induction visited with
  | nil => exact Or.inl ⟨rfl, rfl⟩
  | cons h t ih =>
    rcases haml with ht | ⟨hf, haml'⟩
    · subst ht
      cases hs : scanRes h with
      | none => exact Or.inl ⟨by simp [emitRecords, hs], by simp [candSize, hs]⟩
      | some s =>
        have hs0 : s ≠ 0 := by
          intro hc
          exact hnz h (List.mem_cons_self _ _) (hc ▸ hs)
        refine Or.inr ⟨h.ext, ?_, ?_⟩
        · simp [emitRecords, candSize, hs]
        · simp [candSize, hs]
          omega
    · cases t with
      | nil =>
        cases hs : scanRes h with
        | none => exact Or.inl ⟨by simp [emitRecords, hs], by simp [candSize, hs]⟩
        | some s =>
          have hs0 : s ≠ 0 := by
            intro hc
            exact hnz h (List.mem_cons_self _ _) (hc ▸ hs)
          refine Or.inr ⟨h.ext, ?_, ?_⟩
          · simp [emitRecords, candSize, hs]
          · simp [candSize, hs]
            omega
      | cons h2 t2 =>
        have hnone : scanRes h = none := by
          cases hs : scanRes h with
          | none => rfl
          | some s =>
            have hs0 : s ≠ 0 := by
              intro hc
              exact hnz h (List.mem_cons_self _ _) (hc ▸ hs)
            have := hacc h s hs (by omega)
            rw [this] at hf
            simp at hf
        have he : emitRecords scanRes off (h :: h2 :: t2) =
            emitRecords scanRes off (h2 :: t2) := by
          simp [emitRecords, hnone]
        have hc : candSize scanRes (h :: h2 :: t2) = candSize scanRes (h2 :: t2) := by
          simp [candSize]
        rw [he, hc]
        exact ih haml' (fun x hx => hnz x (List.mem_cons_of_mem _ hx))

theorem scanBufferM_spec (tb : PTable (List HdrM)) (data buf : List Nat)
    (blockOffset bs n : Nat) (hbs : 0 < bs)
    (hnzT : ∀ key v, lookupM tb.elems key = some v →
      ∀ h ∈ v, ∀ s, h.scan s ≠ some 0) :
    ∀ fuel blockIdx,
      (∀ r ∈ scanBufferM tb data buf blockOffset bs n fuel blockIdx,
        ∃ i, blockIdx ≤ i ∧ i < n ∧ r.offset = (blockOffset / bs + i) * bs) ∧
      (scanBufferM tb data buf blockOffset bs n fuel blockIdx).Chain'
        (fun a b => a.offset < b.offset) := by
  intro fuel
  induction fuel with
  | zero =>
    intro blockIdx
    exact ⟨fun r hr => by simp [scanBufferM] at hr, by simp [scanBufferM]⟩
  | succ fuel ih =>
    intro blockIdx
    by_cases hlt : blockIdx < n
    · have hvnz : ∀ x ∈ candVisited tb data buf blockOffset bs n blockIdx,
          x.scan (candStream data buf blockOffset bs n blockIdx) ≠ some 0 := by
        intro x hx
        obtain ⟨key, v, hl, hv⟩ := searchVisits_members tb _ _ x hx
        exact hnzT key v hl x hv _
      have hacc : ∀ (x : HdrM) (s : Nat),
          x.scan (candStream data buf blockOffset bs n blockIdx) = some s → 0 < s →
          candAccept (candStream data buf blockOffset bs n blockIdx) x = true := by
        intro x s hs hpos
        unfold candAccept
        rw [hs]
        simpa using hpos
      have hcand := cand_emit
        (candAccept (candStream data buf blockOffset bs n blockIdx))
        (fun h => h.scan (candStream data buf blockOffset bs n blockIdx))
        ((blockOffset / bs + blockIdx) * bs)
        (candVisited tb data buf blockOffset bs n blockIdx)
        hacc (searchVisits_aml tb _ _) hvnz
      have hrec : scanBufferM tb data buf blockOffset bs n (fuel + 1) blockIdx =
          candRecords tb data buf blockOffset bs n blockIdx ++
            (if 0 < candSz tb data buf blockOffset bs n blockIdx then
              scanBufferM tb data buf blockOffset bs n fuel
                (blockIdx + roundToMul (candSz tb data buf blockOffset bs n blockIdx) bs / bs)
            else
              scanBufferM tb data buf blockOffset bs n fuel (blockIdx + 1)) := by
        conv_lhs => rw [scanBufferM]
        rw [if_pos hlt]
      rcases hcand with ⟨hE, hS⟩ | ⟨fmt, hE, hS⟩
      · have hE' : candRecords tb data buf blockOffset bs n blockIdx = [] := hE
        have hS' : candSz tb data buf blockOffset bs n blockIdx = 0 := hS
        rw [hrec, hE', hS']
        simp only [List.nil_append, lt_irrefl, if_false]
        obtain ⟨hm, hch⟩ := ih (blockIdx + 1)
        refine ⟨?_, hch⟩
        intro r hr
        obtain ⟨i, hi1, hi2, hi3⟩ := hm r hr
        exact ⟨i, by omega, hi2, hi3⟩
      · have hE' : candRecords tb data buf blockOffset bs n blockIdx =
            [⟨(blockOffset / bs + blockIdx) * bs,
              candSz tb data buf blockOffset bs n blockIdx, fmt⟩] := hE
        have hS' : 0 < candSz tb data buf blockOffset bs n blockIdx := hS
        rw [hrec, hE', if_pos hS']
        have hfb : 1 ≤ roundToMul (candSz tb data buf blockOffset bs n blockIdx) bs / bs :=
          roundToMul_div_pos _ bs hS' hbs
        obtain ⟨hm, hch⟩ := ih
          (blockIdx + roundToMul (candSz tb data buf blockOffset bs n blockIdx) bs / bs)
        constructor
        · intro r hr
          rcases List.mem_cons.1 (by simpa using hr) with rfl | hr'
          · exact ⟨blockIdx, le_refl _, hlt, rfl⟩
          · obtain ⟨i, hi1, hi2, hi3⟩ := hm r hr'
            exact ⟨i, by omega, hi2, hi3⟩
        · rw [List.singleton_append]
          rw [List.chain'_cons']
          refine ⟨?_, hch⟩
          intro y hy
          obtain ⟨i, hi1, hi2, hi3⟩ := hm y (List.mem_of_mem_head? hy)
          show (blockOffset / bs + blockIdx) * bs < y.offset
          rw [hi3]
          have : blockIdx < i := by omega
          exact Nat.mul_lt_mul_of_lt_of_le (by omega) (le_refl bs) hbs
    · unfold scanBufferM
      rw [if_neg hlt]
      exact ⟨fun r hr => by simp at hr, by simp⟩

theorem scanLoopM_spec (tb : PTable (List HdrM)) (data : List Nat) (bs : Nat)
    (hbs : 0 < bs)
    (hnzT : ∀ key v, lookupM tb.elems key = some v →
      ∀ h ∈ v, ∀ s, h.scan s ≠ some 0) :
    ∀ fuel buf blockOffset, bs ∣ buf.length → bs ∣ blockOffset →
      (∀ r ∈ scanLoopM tb data bs fuel buf blockOffset,
        blockOffset ≤ r.offset ∧ bs ∣ r.offset) ∧
      (scanLoopM tb data bs fuel buf blockOffset).Chain'
        (fun a b => a.offset < b.offset) := by
  intro fuel
  induction fuel with
  | zero =>
    intro buf blockOffset _ _
    exact ⟨fun r hr => by simp [scanLoopM] at hr, by simp [scanLoopM]⟩
  | succ fuel ih =>
    intro buf blockOffset hdvb hdvo
    by_cases hlt : blockOffset < data.length
    · have hrec : scanLoopM tb data bs (fuel + 1) buf blockOffset =
          scanBufferM tb data (fillBuf data blockOffset buf) blockOffset bs
              (roundToMul (nReadAt data.length blockOffset buf.length) bs / bs)
              (roundToMul (nReadAt data.length blockOffset buf.length) bs / bs) 0 ++
            (if nReadAt data.length blockOffset buf.length < buf.length then []
            else
              scanLoopM tb data bs fuel (fillBuf data blockOffset buf)
                (blockOffset + buf.length)) := by
        conv_lhs => rw [scanLoopM]
        rw [if_pos hlt]
      have hnb : (roundToMul (nReadAt data.length blockOffset buf.length) bs / bs) * bs
          ≤ buf.length := by
        rw [roundToMul_div_mul]
        calc roundToMul (nReadAt data.length blockOffset buf.length) bs
            ≤ roundToMul buf.length bs :=
              roundToMul_mono _ _ bs (Nat.min_le_left _ _)
          _ = buf.length := roundToMul_of_dvd _ bs hbs hdvb
      obtain ⟨hbm, hbch⟩ := scanBufferM_spec tb data (fillBuf data blockOffset buf)
        blockOffset bs (roundToMul (nReadAt data.length blockOffset buf.length) bs / bs)
        hbs hnzT (roundToMul (nReadAt data.length blockOffset buf.length) bs / bs) 0
      have hoff : ∀ r ∈ scanBufferM tb data (fillBuf data blockOffset buf) blockOffset bs
          (roundToMul (nReadAt data.length blockOffset buf.length) bs / bs)
          (roundToMul (nReadAt data.length blockOffset buf.length) bs / bs) 0,
          blockOffset ≤ r.offset ∧ bs ∣ r.offset ∧
            r.offset < blockOffset + buf.length := by
        intro r hr
        obtain ⟨i, _, hi2, hi3⟩ := hbm r hr
        have hq : blockOffset / bs * bs = blockOffset := Nat.div_mul_cancel hdvo
        have hoffeq : r.offset = blockOffset + i * bs := by
          rw [hi3, Nat.add_mul, hq]
        refine ⟨by omega, ?_, ?_⟩
        · rw [hi3]
          exact dvd_mul_left bs _
        · have hib : i * bs + bs ≤
              (roundToMul (nReadAt data.length blockOffset buf.length) bs / bs) * bs := by
            have hmul : (i + 1) * bs ≤
                (roundToMul (nReadAt data.length blockOffset buf.length) bs / bs) * bs :=
              Nat.mul_le_mul_right bs (by omega)
            rw [Nat.add_mul, Nat.one_mul] at hmul
            exact hmul
          omega
      by_cases heof : nReadAt data.length blockOffset buf.length < buf.length
      · rw [hrec, if_pos heof, List.append_nil]
        refine ⟨fun r hr => ⟨(hoff r hr).1, (hoff r hr).2.1⟩, hbch⟩
      · rw [hrec, if_neg heof]
        obtain ⟨hlm, hlch⟩ := ih (fillBuf data blockOffset buf) (blockOffset + buf.length)
          (by rw [fillBuf_length]; exact hdvb) (dvd_add hdvo hdvb)
        constructor
        · intro r hr
          rcases List.mem_append.1 hr with hr' | hr'
          · exact ⟨(hoff r hr').1, (hoff r hr').2.1⟩
          · obtain ⟨h1, h2⟩ := hlm r hr'
            exact ⟨by omega, h2⟩
        · refine List.Chain'.append hbch hlch ?_
          intro x hx y hy
          have hx' := hoff x (List.mem_of_mem_getLast? hx)
          have hy' := hlm y (List.mem_of_mem_head? hy)
          show x.offset < y.offset
          omega
    · unfold scanLoopM
      rw [if_neg hlt]
      exact ⟨fun r hr => by simp at hr, by simp⟩

/-- Claim C1: the non-overlap invariant fails when an accepted carve
extends past the end of the scan buffer: with block size 1, buffer
size 2 and a header carving 4 bytes at byte `AA`, the engine emits a
record at offset 0 of size 4 and then another at offset 2, although
the next candidate offset after the first carve must be at least
`roundToMul (0 + 4) 1 = 4`.  The outer loop advances `blockOffset` by
the buffer length unconditionally, forgetting that the carve consumed
bytes beyond the buffer. -/
theorem scanEngine_overlap_bug :
    scanEngine [bugHdr] bugData 2 1 = [⟨0, 4, "bin"⟩, ⟨2, 4, "bin"⟩] ∧
    2 < roundToMul (0 + 4) 1 := by
  constructor
  · decide
  · decide

/-- Claim C2: for every scan run of the buffered engine over any
region, with a positive block size and headers whose scans never
succeed with size zero (as the bundled ones do — a zero-size success
would make the engine yield a record and retry the same offset), the
sequence of emitted offsets is strictly increasing and every emitted
offset is a multiple of the block size. -/
theorem scanEngine_offsets_mono (hdrs : List HdrM) (data : List Nat)
    (bufferSize bs : Nat) (hbs : 0 < bs)
    (hnz : ∀ h ∈ hdrs, ∀ s, h.scan s ≠ some 0) :
    (scanEngine hdrs data bufferSize bs).Chain' (fun a b => a.offset < b.offset) ∧
    ∀ r ∈ scanEngine hdrs data bufferSize bs, bs ∣ r.offset := by
  have hnzT : ∀ key v, lookupM (buildRegistry HdrM.sigs hdrs).elems key = some v →
      ∀ h ∈ v, ∀ s, h.scan s ≠ some 0 := by
    intro key v hl h hh s
    exact hnz h (RVals_build HdrM.sigs hdrs key v hl h hh) s
  have hmain := scanLoopM_spec (buildRegistry HdrM.sigs hdrs) data bs hbs hnzT
    data.length (List.replicate (roundToMul bufferSize bs) 0) 0
    (by rw [List.length_replicate]; exact roundToMul_dvd bufferSize bs)
    (dvd_zero bs)
  exact ⟨hmain.2, fun r hr => (hmain.1 r hr).2⟩

/-- Witness for C2: the monotonicity theorem applied to the concrete
one-header engine run of the overlap example — the two records at
offsets 0 and 2 are strictly increasing and multiples of 1. -/
theorem scanEngine_offsets_mono_witness :
    (0 < 1 ∧ ∀ h2 ∈ [bugHdr], ∀ s, h2.scan s ≠ some 0) ∧
    (scanEngine [bugHdr] bugData 2 1).Chain' (fun a b => a.offset < b.offset) ∧
    ∀ r ∈ scanEngine [bugHdr] bugData 2 1, 1 ∣ r.offset := by
  have hnz : ∀ h2 ∈ [bugHdr], ∀ s, h2.scan s ≠ some 0 := by
    intro h2 hh s
    rcases List.mem_singleton.1 hh with rfl
    show (if s.take 1 = [170] then some 4 else none) ≠ some 0
    split <;> simp
  exact ⟨⟨Nat.one_pos, hnz⟩,
    scanEngine_offsets_mono [bugHdr] bugData 2 1 Nat.one_pos hnz⟩

/-- Witness for C5: the equivalence applied to a concrete two-scanner
registry (signatures `AA` and `AA BB`) on the input `AA BB` with a
callback that never accepts. -/
theorem registry_search_equiv_naive_witness :
    (∀ sc ∈ [1, 2], ∀ sig ∈ regSigsOf sc, sig ≠ []) ∧
    searchVisits (buildRegistry regSigsOf [1, 2]) (fun _ => false) [170, 187] =
      naiveVisits (buildRegistry regSigsOf [1, 2]) (fun _ => false) [170, 187] :=
  ⟨by decide,
    registry_search_equiv_naive regSigsOf [1, 2] (fun _ => false) [170, 187] (by decide)⟩

end Digler

